import Mathlib

/-!
# Verification of the pyMAW `.pat` pattern libraries

Shallow embedding of the two `pat_lib.py` variants of the pyMAW pyRevit
extension (the Tools-panel `Make Pattern` variant and the Test-panel
`TestTube` variant) together with the roofing normal/bump map generators,
and proofs about them.

Modelling conventions:
* Python floats are modelled as exact rationals (`ℚ`); the literal `1e-9`
  becomes the exact rational `1 / 10^9`.
* Python strings are modelled as `List Char`; a text stream is modelled as
  the list of its lines.
* `float(s)` is modelled by `pyFloatQ`, covering optionally signed decimal
  literals (the formats exercised by `.pat` files); any other string is a
  parse failure, as in Python.
* `math.cos(math.radians a)` and `math.sin(math.radians a)` are modelled by
  function parameters `cosD sinD : ℚ → ℚ`; theorems that need the direction
  to be a unit vector assume `(cosD a)^2 + (sinD a)^2 = 1`.  Concrete
  evaluations instantiate them with `rightCos`/`rightSin`, which give the
  exact values on multiples of 90 degrees.
* Python `%` on floats (sign follows the divisor) is modelled by `qmod`,
  and `round(x, 8)` (banker's rounding to 8 decimal places) by `round8`.
-/

/-- Python `str.strip` whitespace set (space, tab, and line/page controls). -/
def pyIsSpace (c : Char) : Bool :=
  c == ' ' || c == '\t' || c == '\n' || c == '\r' || c == '\x0b' || c == '\x0c'

/-- Python `str.strip()`: drop whitespace from both ends. -/
def charTrim (l : List Char) : List Char :=
  ((l.dropWhile pyIsSpace).reverse.dropWhile pyIsSpace).reverse

/-- Python `str.startswith(pre)` on character lists. -/
def beginsWith : List Char → List Char → Bool
  | [], _ => true
  | _ :: _, [] => false
  | p :: ps, c :: cs => p == c && beginsWith ps cs

/-- Python `str.upper()` (ASCII case suffices for the control words used). -/
def toUpperL (l : List Char) : List Char := l.map Char.toUpper

/-- Python `str.split(sep)` for a one-character separator. -/
def splitCh (c : Char) : List Char → List (List Char)
  | [] => [[]]
  | a :: rest =>
    match splitCh c rest with
    | [] => [[]]
    | r :: rs => if a == c then [] :: r :: rs else (a :: r) :: rs

/-- Value of a digit string (most significant first). -/
def digitsToNat (ds : List Char) : ℕ :=
  ds.foldl (fun acc c => 10 * acc + (c.toNat - '0'.toNat)) 0

/-- Unsigned decimal literal: digits with an optional single decimal point. -/
def parseUnsignedQ (cs : List Char) : Option ℚ :=
  let ip := cs.takeWhile Char.isDigit
  let rest := cs.dropWhile Char.isDigit
  match rest with
  | [] => if ip = [] then none else some (digitsToNat ip : ℚ)
  | '.' :: fp =>
    if fp.all Char.isDigit ∧ ip ++ fp ≠ [] then
      some ((digitsToNat ip : ℚ) + (digitsToNat fp : ℚ) / 10 ^ fp.length)
    else none
  | _ => none

/-- Model of Python `float(s)` restricted to signed decimal literals. -/
def pyFloatQ (cs : List Char) : Option ℚ :=
  match charTrim cs with
  | '+' :: r => parseUnsignedQ r
  | '-' :: r => (parseUnsignedQ r).map (fun q => -q)
  | r => parseUnsignedQ r

/-- Python float `%` (the sign of the result follows the divisor). -/
def qmod (a b : ℚ) : ℚ := a - b * ⌊a / b⌋

/-- Round a rational to the nearest integer, ties to even (Python `round`). -/
def roundHalfEven (q : ℚ) : ℤ :=
  let n := ⌊q⌋
  let f := q - n
  if f < 1 / 2 then n
  else if 1 / 2 < f then n + 1
  else if 2 ∣ n then n else n + 1

/-- Python `round(x, 8)`: rounding to 8 decimal places, ties to even. -/
def round8 (x : ℚ) : ℚ := (roundHalfEven (x * 10 ^ 8) : ℚ) / 10 ^ 8

/-- The `1e-9` epsilon used by the TestTube generator. -/
def epsQ : ℚ := 1 / 1000000000

/-- A drawing instruction `{'x1':…,'y1':…,'x2':…,'y2':…}`. -/
structure Seg where
  x1 : ℚ
  y1 : ℚ
  x2 : ℚ
  y2 : ℚ
deriving DecidableEq

/-- Exact cosine of an angle in degrees, for right-angle multiples (used to
instantiate the trig oracle of the embedding at concrete inputs). -/
def rightCos (a : ℚ) : ℚ :=
  if qmod a 360 = 0 then 1
  else if qmod a 360 = 90 then 0
  else if qmod a 360 = 180 then -1
  else if qmod a 360 = 270 then 0
  else 0

/-- Exact sine of an angle in degrees, for right-angle multiples. -/
def rightSin (a : ℚ) : ℚ :=
  if qmod a 360 = 0 then 0
  else if qmod a 360 = 90 then 1
  else if qmod a 360 = 180 then 0
  else if qmod a 360 = 270 then -1
  else 0

/-- Name part of a `*name, description` header tail (before the first comma,
stripped), as in `line[1:].split(",", 1)[0].strip()`. -/
def headerName (cs : List Char) : List Char :=
  charTrim (cs.takeWhile (fun c => c ≠ ','))

/-- Description part of a `*name, description` header tail (after the first
comma, stripped; empty when there is no comma). -/
def headerDesc (cs : List Char) : List Char :=
  if cs.any (fun c => c == ',') then
    charTrim ((cs.dropWhile (fun c => c ≠ ',')).drop 1)
  else []

/-- Replace the last element of a list (the Python code mutates the pattern
object most recently appended to `self.patterns`). -/
def updateLast {α : Type} (f : α → α) : List α → List α
  | [] => []
  | [a] => [f a]
  | a :: b :: rest => a :: updateLast f (b :: rest)

namespace TT

/-- `Line` of the TestTube `pat_lib.py`: a line family in local vector basis
(`delta_u` parallel, `delta_v` perpendicular). -/
structure Line where
  angle_deg : ℚ
  origin_x : ℚ
  origin_y : ℚ
  delta_u : ℚ
  delta_v : ℚ
  dashes : List ℚ
deriving DecidableEq

/-- Unit vector parallel to the line: `(cos a, sin a)`. -/
def Line.vec_u (cosD sinD : ℚ → ℚ) (l : Line) : ℚ × ℚ :=
  (cosD l.angle_deg, sinD l.angle_deg)

/-- Unit vector perpendicular to the line: `(-sin a, cos a)`. -/
def Line.vec_v (cosD sinD : ℚ → ℚ) (l : Line) : ℚ × ℚ :=
  (-sinD l.angle_deg, cosD l.angle_deg)

/-- Global offset to the next line of the family, rounded to 8 decimals:
`(delta_u * u + delta_v * v)` componentwise under `round8`. -/
def Line.get_family_offset (cosD sinD : ℚ → ℚ) (l : Line) : ℚ × ℚ :=
  let u := l.vec_u cosD sinD
  let v := l.vec_v cosD sinD
  (round8 (l.delta_u * u.1 + l.delta_v * v.1),
   round8 (l.delta_u * u.2 + l.delta_v * v.2))

/-- Total length of one dash-pattern repetition: `sum(abs(d))`. -/
def Line.get_length (l : Line) : ℚ := (l.dashes.map (fun d => |d|)).sum

/-- Scale the family's base point, displacements and dashes. -/
def Line.scale (factor : ℚ) (l : Line) : Line :=
  ⟨l.angle_deg, l.origin_x * factor, l.origin_y * factor,
   l.delta_u * factor, l.delta_v * factor, l.dashes.map (fun d => d * factor)⟩

/-- Rotate the family's angle and base point by `angle` degrees. -/
def Line.rotate (cosD sinD : ℚ → ℚ) (angle : ℚ) (l : Line) : Line :=
  ⟨qmod (l.angle_deg + angle) 360,
   l.origin_x * cosD angle - l.origin_y * sinD angle,
   l.origin_x * sinD angle + l.origin_y * cosD angle,
   l.delta_u, l.delta_v, l.dashes⟩

/-- Total absolute dash length `loop_len = sum(abs(d) for d in dashes)`. -/
def loopLen (dashes : List ℚ) : ℚ := (dashes.map (fun d => |d|)).sum

/-- The dash-selection loop: walk the dash list accumulating `dist_in_cycle`
and stop at the first dash with `dist_in_cycle + abs(dash) > cycle_phase`,
returning that dash's value and `dist_in_cycle` (the Python code keeps its
index and re-reads `dashes[active_dash_idx]`; the fallback when no dash
breaks is index 0, hence `d0`). -/
def selAux (d0 φ : ℚ) : List ℚ → ℚ → ℚ × ℚ
  | [], acc => (d0, acc)
  | d :: ds, acc => if acc + |d| > φ then (d, acc) else selAux d0 φ ds (acc + |d|)

/-- Find the active dash covering phase `φ` of the cycle. -/
def selectDash (dashes : List ℚ) (φ : ℚ) : ℚ × ℚ :=
  selAux (dashes.headD 0) φ dashes 0

/-- One-sided fuel for the dash loop over the window `[s, e]`: each
iteration advances `current_t` by at least `1e-9`. -/
def fuelFor (s e : ℚ) : ℕ := (⌈(e - s) * 1000000000⌉).toNat + 1

/-- The body of `_get_dashed_segments_basis`'s `while` loop, producing the
drawn `t`-intervals `(current_t, current_t + step)` measured from the
pattern origin; `none` means the fuel ran out. -/
def gdsbAux (dashes : List ℚ) (tEnd : ℚ) : ℕ → ℚ → Option (List (ℚ × ℚ))
  | 0, _ => none
  | fuel + 1, t =>
    if t < tEnd then
      let L := loopLen dashes
      let φ := qmod t L
      let sel := selectDash dashes φ
      let offInDash := φ - sel.2
      let rem := |sel.1| - offInDash
      let step := min rem (tEnd - t)
      let pieces : List (ℚ × ℚ) :=
        if sel.1 > 0 ∧ step > epsQ then [(t, t + step)] else []
      let tNext := t + step + (if step < epsQ then epsQ else 0)
      (gdsbAux dashes tEnd fuel tNext).map (fun rest => pieces ++ rest)
    else some []

/-- Drawn `t`-intervals of the dash walk over `[s, e]`. -/
def dashPieces (s e : ℚ) (dashes : List ℚ) : List (ℚ × ℚ) :=
  (gdsbAux dashes e (fuelFor s e) s).getD []

/-- Map a `t`-interval along `P(t) = (px, py) + t·u` to a segment. -/
def toSeg (px py : ℚ) (u : ℚ × ℚ) (p : ℚ × ℚ) : Seg :=
  ⟨px + p.1 * u.1, py + p.1 * u.2, px + p.2 * u.1, py + p.2 * u.2⟩

/-- `Pattern._get_dashed_segments_basis`: dashed segments along `u` from the
pattern origin `(px, py)`; returns `[]` when the dash cycle has length 0,
otherwise walks the cycle from `t_start` to `t_end` (decomposed here as the
`t`-interval walk `dashPieces` mapped through `toSeg`). -/
def getDashedSegmentsBasis (px py : ℚ) (u : ℚ × ℚ) (tStart tEnd : ℚ)
    (dashes : List ℚ) : List Seg :=
  if loopLen dashes = 0 then []
  else (dashPieces tStart tEnd dashes).map (toSeg px py u)

/-- Segments contributed by one family line `k` (pattern origin `P_k`):
parametric clipping of `P_k + t·u` against `[0,w] × [0,h]` followed by the
continuous or dashed emission.  The case in which both components of `u`
are below the `1e-9` threshold (impossible for a cosine/sine pair) is
modelled as emitting nothing. -/
def segsForK (u : ℚ × ℚ) (width height pkx pky : ℚ) (dashes : List ℚ) :
    List Seg :=
  if |u.1| < epsQ then
    if pkx < 0 ∨ width < pkx then []
    else if |u.2| < epsQ then []
    else
      let t1 := (0 - pky) / u.2
      let t2 := (height - pky) / u.2
      if dashes = [] then [toSeg pkx pky u (min t1 t2, max t1 t2)]
      else getDashedSegmentsBasis pkx pky u (min t1 t2) (max t1 t2) dashes
  else
    let s1 := (0 - pkx) / u.1
    let s2 := (width - pkx) / u.1
    let tEn := min s1 s2
    let tEx := max s1 s2
    if |u.2| < epsQ then
      if pky < 0 ∨ height < pky then []
      else if dashes = [] then [toSeg pkx pky u (tEn, tEx)]
      else getDashedSegmentsBasis pkx pky u tEn tEx dashes
    else
      let t1 := (0 - pky) / u.2
      let t2 := (height - pky) / u.2
      let tEn2 := max tEn (min t1 t2)
      let tEx2 := min tEx (max t1 t2)
      if tEn2 ≤ tEx2 then
        if dashes = [] then [toSeg pkx pky u (tEn2, tEx2)]
        else getDashedSegmentsBasis pkx pky u tEn2 tEx2 dashes
      else []

/-- Projection of a point onto `vec_v = (-sin a, cos a)`. -/
def vProj (c s x y : ℚ) : ℚ := x * -s + y * c

/-- Minimum of the projections of the four box corners onto `vec_v`. -/
def vProjMin (c s width height : ℚ) : ℚ :=
  min (min (vProj c s 0 0) (vProj c s width 0))
      (min (vProj c s 0 height) (vProj c s width height))

/-- Maximum of the projections of the four box corners onto `vec_v`. -/
def vProjMax (c s width height : ℚ) : ℚ :=
  max (max (vProj c s 0 0) (vProj c s width 0))
      (max (vProj c s 0 height) (vProj c s width height))

/-- Raw family index range `(k_min, k_max)` before the safety clamp:
projection of the box corners and the origin onto the perpendicular axis. -/
def kRangeRaw (cosD sinD : ℚ → ℚ) (width height : ℚ) (lf : Line) : ℤ × ℤ :=
  let c := cosD lf.angle_deg
  let s := sinD lf.angle_deg
  let minV := vProjMin c s width height
  let maxV := vProjMax c s width height
  let originV := vProj c s lf.origin_x lf.origin_y
  if |lf.delta_v| < epsQ then (0, 0)
  else
    let val1 := (minV - originV) / lf.delta_v
    let val2 := (maxV - originV) / lf.delta_v
    (⌊min val1 val2⌋, ⌈max val1 val2⌉)

/-- `MAX_LINES_PER_FAMILY` safety limit. -/
def MAX_LINES_PER_FAMILY : ℤ := 4096

/-- Family index range after the safety clamp. -/
def kRange (cosD sinD : ℚ → ℚ) (width height : ℚ) (lf : Line) : ℤ × ℤ :=
  let kr := kRangeRaw cosD sinD width height lf
  if kr.2 - kr.1 > MAX_LINES_PER_FAMILY then (kr.1, kr.1 + MAX_LINES_PER_FAMILY)
  else kr

/-- All segments generated for one (already transformed) line family. -/
def famSegments (cosD sinD : ℚ → ℚ) (width height : ℚ) (lf : Line) :
    List Seg :=
  let u := lf.vec_u cosD sinD
  let famOff := lf.get_family_offset cosD sinD
  let kr := kRange cosD sinD width height lf
  ((List.range (kr.2 + 1 - kr.1).toNat).map (fun n : ℕ => kr.1 + (n : ℤ))).flatMap
    (fun k => segsForK u width height (lf.origin_x + (k : ℚ) * famOff.1)
      (lf.origin_y + (k : ℚ) * famOff.2) lf.dashes)

/-- `Pattern` of the TestTube `pat_lib.py`. -/
structure Pattern where
  name : List Char
  description : List Char
  is_metric : Bool
  pattern_type : String
  lines : List Line
deriving DecidableEq

/-- `Pattern.estimate_scale`: scale from perpendicular spacing. -/
def Pattern.estimate_scale (p : Pattern) (target repetitions : ℚ) : ℚ :=
  let maxSpacing := (p.lines.map (fun lf => |lf.delta_v|)).foldl max 0
  let maxLength := (p.lines.map Line.get_length).foldl max 0
  if maxSpacing = 0 ∨ repetitions = 0 then 1
  else target / max (repetitions * maxSpacing) maxLength

/-- The session copy of the pattern's line families, after the optional
rotation and scaling applied by `generate_drawing_instructions`. -/
def Pattern.sessionLines (cosD sinD : ℚ → ℚ) (p : Pattern) (width : ℚ)
    (heightO scaleO : Option ℚ) (rotation : ℚ) : List Line :=
  let height := heightO.getD width
  let maxSize := max width height
  let currentScale := scaleO.getD (p.estimate_scale maxSize 5)
  let lines1 :=
    if rotation ≠ 0 then p.lines.map (Line.rotate cosD sinD rotation)
    else p.lines
  if currentScale ≠ 1 then lines1.map (Line.scale currentScale) else lines1

/-- `Pattern.generate_drawing_instructions`: line segments filling the
rectangle `[0,width] × [0,height]` (height defaults to `width`, scale to
`estimate_scale`, rotation to 0). -/
def Pattern.generate_drawing_instructions (cosD sinD : ℚ → ℚ) (p : Pattern)
    (width : ℚ) (heightO scaleO : Option ℚ) (rotation : ℚ) : List Seg :=
  if p.lines = [] then []
  else
    (p.sessionLines cosD sinD width heightO scaleO rotation).flatMap
      (famSegments cosD sinD width (heightO.getD width))

/-- Look for the `;%UNITS=MM` control line before the first header. -/
def scanMetric : List (List Char) → Bool
  | [] => false
  | l :: ls =>
    if beginsWith (";%UNITS=MM".toList) (toUpperL l) then true
    else if beginsWith ['*'] l then false
    else scanMetric ls

/-- Parser state: patterns parsed so far and a pending `;TYPE=` declaration. -/
structure PState where
  pats : List Pattern
  curType : Option String

/-- Split a data line on commas, strip the parts, drop empty parts and
convert each remaining part with `float` (failure of any part aborts the
whole line, as the Python exception does). -/
def ttParseNums (line : List Char) : Option (List ℚ) :=
  (((splitCh ',' line).map charTrim).filter (fun p => p ≠ [])).mapM pyFloatQ

/-- One step of `PatternSet._parse_stream`'s main loop. -/
def parseStep (isMetric : Bool) (st : PState) (line : List Char) : PState :=
  let up := toUpperL line
  if st.pats ≠ [] ∧ st.curType = none ∧ beginsWith (";TYPE=".toList) up then
    let ty := if beginsWith ("MODEL".toList) (up.drop 6) then "Model"
              else "Drafting"
    { st with curType := some ty }
  else if beginsWith [';'] line then st
  else if beginsWith ['*'] line then
    let rest := line.drop 1
    { pats := st.pats ++
        [⟨headerName rest, headerDesc rest, isMetric,
          st.curType.getD "Drafting", []⟩],
      curType := none }
  else if st.pats ≠ [] then
    match ttParseNums line with
    | none => st
    | some parts =>
      if parts.length < 5 then st
      else
        let tail5 := parts.drop 5
        let dashes := if tail5.all (fun x => x == 0) then [] else tail5
        let lf : Line := ⟨parts.getD 0 0, parts.getD 1 0, parts.getD 2 0,
                          parts.getD 3 0, parts.getD 4 0, dashes⟩
        { st with
            pats := updateLast (fun p => { p with lines := p.lines ++ [lf] })
              st.pats }
  else st

/-- `PatternSet._parse_stream` on the lines of a stream. -/
def parseStream (rawLines : List (List Char)) : List Pattern :=
  let allLines := (rawLines.map charTrim).filter (fun l => l ≠ [])
  let metric := scanMetric allLines
  (allLines.foldl (parseStep metric) ⟨[], none⟩).pats

/-- `PatternSet.get_pattern` / `__getitem__`: name lookup with the Python
dict semantics (the last pattern registered under a name wins). -/
def get_pattern (pats : List Pattern) (nm : List Char) : Option Pattern :=
  (pats.filter (fun p => p.name = nm)).getLast?

end TT

namespace Tools

/-- `PatternLineFamily` of the Tools-panel `pat_lib.py`: `delta[0]` is the
perpendicular displacement, `delta[1]` the parallel stagger. -/
structure PatternLineFamily where
  angle : ℚ
  origin : ℚ × ℚ
  delta : ℚ × ℚ
  dashes : List ℚ
deriving DecidableEq

/-- `HatchPattern` of the Tools-panel `pat_lib.py`. -/
structure HatchPattern where
  name : List Char
  description : List Char
  line_families : List PatternLineFamily
deriving DecidableEq

/-- `HatchPattern.estimate_scale`: fit `repetitions` repetitions of the
largest perpendicular displacement into `target_size`. -/
def HatchPattern.estimate_scale (p : HatchPattern)
    (target repetitions : ℚ) : ℚ :=
  let maxDisp := (p.line_families.map (fun lf => |lf.delta.1|)).foldl max 0
  if maxDisp = 0 ∨ repetitions = 0 then 1 else target / (repetitions * maxDisp)

/-- One constraint step of the Liang-Barsky-like loop in `_clip_line`:
accumulate `(t0, t1)` over the `(p, q)` pairs, failing on a parallel
constraint with `q < 0`. -/
def clipLoop : List (ℚ × ℚ) → ℚ → ℚ → Option (ℚ × ℚ)
  | [], t0, t1 => some (t0, t1)
  | (p, q) :: rest, t0, t1 =>
    if p = 0 then (if q < 0 then none else clipLoop rest t0 t1)
    else
      let t := q / p
      if p < 0 then clipLoop rest (max t0 t) t1 else clipLoop rest t0 (min t1 t)

/-- `HatchPattern._clip_line`: clip the segment `(x1,y1)-(x2,y2)` to the
rectangle `bounds = (xmin, ymin, xmax, ymax)`. -/
def clip_line (x1 y1 x2 y2 : ℚ) (bounds : ℚ × ℚ × ℚ × ℚ) :
    Option (ℚ × ℚ × ℚ × ℚ) :=
  let xmin := bounds.1
  let ymin := bounds.2.1
  let xmax := bounds.2.2.1
  let ymax := bounds.2.2.2
  let dx := x2 - x1
  let dy := y2 - y1
  match clipLoop [(-dx, x1 - xmin), (dx, xmax - x1),
                  (-dy, y1 - ymin), (dy, ymax - y1)] 0 1 with
  | none => none
  | some (t0, t1) =>
    if t0 > t1 then none
    else some (x1 + t0 * dx, y1 + t0 * dy, x1 + t1 * dx, y1 + t1 * dy)

/-- One pass of the `for dash in dashes` loop of `_apply_dashes`; returns
the segments drawn in the pass and the updated `current_pos`. -/
def dashPass (x1 y1 ux uy lineLength : ℚ) :
    List ℚ → ℚ → List Seg × ℚ
  | [], cur => ([], cur)
  | dash :: rest, cur =>
    if lineLength ≤ cur then ([], cur)
    else
      let dlen := |dash|
      let endD := min (cur + dlen) lineLength
      let segs : List Seg :=
        if dash > 0 ∧ cur < endD then
          [⟨x1 + cur * ux, y1 + cur * uy, x1 + endD * ux, y1 + endD * uy⟩]
        else []
      let r := dashPass x1 y1 ux uy lineLength rest (cur + dlen)
      (segs ++ r.1, r.2)

/-- The outer `while current_pos < line_length` loop of `_apply_dashes`,
with fuel (the Python loop does not terminate when every dash has length
zero; the fuel cutoff models that divergence by an empty tail). -/
def dashOuter (x1 y1 ux uy lineLength : ℚ) (dashes : List ℚ) :
    ℕ → ℚ → List Seg
  | 0, _ => []
  | fuel + 1, cur =>
    if cur < lineLength then
      let r := dashPass x1 y1 ux uy lineLength dashes cur
      r.1 ++ dashOuter x1 y1 ux uy lineLength dashes fuel r.2
    else []

/-- `HatchPattern._apply_dashes`: dash pattern applied along one clipped
segment.  The float `sqrt` computing the segment length is modelled by the
oracle `sqrtFn`. -/
def apply_dashes (sqrtFn : ℚ → ℚ) (x1 y1 x2 y2 : ℚ) (dashes : List ℚ) :
    List Seg :=
  let dx := x2 - x1
  let dy := y2 - y1
  let lineLength := sqrtFn (dx ^ 2 + dy ^ 2)
  if lineLength = 0 then []
  else
    let ux := dx / lineLength
    let uy := dy / lineLength
    let total := (dashes.map (fun d => |d|)).sum
    let fuel := if total ≤ 0 then 1 else (⌈lineLength / total⌉).toNat + 2
    dashOuter x1 y1 ux uy lineLength dashes fuel 0

/-- The start point of line `i` of a family: scaled origin plus `i` times
the perpendicular displacement vector plus the parallel stagger. -/
def lineStart (ca sa sox soy sdx sdy : ℚ) (i : ℤ) : ℚ × ℚ :=
  (sox + (i : ℚ) * (-sa * sdx) + ca * ((i : ℚ) * sdy),
   soy + (i : ℚ) * (ca * sdx) + sa * ((i : ℚ) * sdy))

/-- Segments generated for one line family by the Tools-panel
`generate_drawing_instructions`. -/
def famSegments (cosD sinD sqrtFn : ℚ → ℚ) (square_size scale : ℚ)
    (lf : PatternLineFamily) : List Seg :=
  let sox := lf.origin.1 * scale
  let soy := lf.origin.2 * scale
  let sdx := lf.delta.1 * scale
  let sdy := lf.delta.2 * scale
  let sdashes := lf.dashes.map (fun d => d * scale)
  let ca := cosD lf.angle
  let sa := sinD lf.angle
  let pr := fun (c : ℚ × ℚ) => (c.1 - sox) * (-sa) + (c.2 - soy) * ca
  let minProj := min (min (pr (0, 0)) (pr (square_size, 0)))
                     (min (pr (0, square_size)) (pr (square_size, square_size)))
  let maxProj := max (max (pr (0, 0)) (pr (square_size, 0)))
                     (max (pr (0, square_size)) (pr (square_size, square_size)))
  let ir : ℤ × ℤ :=
    if sdx = 0 then (0, 1) else (⌊minProj / sdx⌋, ⌈maxProj / sdx⌉)
  ((List.range (ir.2 - ir.1).toNat).map (fun n : ℕ => ir.1 + (n : ℤ))).flatMap
    (fun i =>
      let sp := lineStart ca sa sox soy sdx sdy i
      let p1x := sp.1 - ca * square_size * 2
      let p1y := sp.2 - sa * square_size * 2
      let p2x := sp.1 + ca * square_size * 2
      let p2y := sp.2 + sa * square_size * 2
      match clip_line p1x p1y p2x p2y (0, 0, square_size, square_size) with
      | none => []
      | some (cx1, cy1, cx2, cy2) =>
        if sdashes = [] then [⟨cx1, cy1, cx2, cy2⟩]
        else apply_dashes sqrtFn cx1 cy1 cx2 cy2 sdashes)

/-- `HatchPattern.generate_drawing_instructions`: fill the square
`[0,square_size]^2` with the pattern. -/
def HatchPattern.generate_drawing_instructions (cosD sinD sqrtFn : ℚ → ℚ)
    (p : HatchPattern) (square_size : ℚ) (scaleO : Option ℚ) : List Seg :=
  if p.line_families = [] then []
  else
    let scale := scaleO.getD (p.estimate_scale square_size 3)
    p.line_families.flatMap (famSegments cosD sinD sqrtFn square_size scale)

/-- One step of `PatParse.parse_string`'s loop. -/
def parseStep (pats : List HatchPattern) (rawLine : List Char) :
    List HatchPattern :=
  let line := charTrim rawLine
  if line = [] ∨ beginsWith [';'] line then pats
  else if beginsWith ['*'] line then
    let rest := line.drop 1
    pats ++ [⟨headerName rest, headerDesc rest, []⟩]
  else if pats ≠ [] then
    match (splitCh ',' line).mapM pyFloatQ with
    | some (a :: ox :: oy :: dx :: dy :: rest) =>
      updateLast
        (fun p => { p with line_families :=
          p.line_families ++ [⟨a, (ox, oy), (dx, dy), rest⟩] }) pats
    | _ => pats
  else pats

/-- `PatParse.parse_string` on the lines of the content. -/
def parse_string (rawLines : List (List Char)) : List HatchPattern :=
  rawLines.foldl parseStep []

/-- `PatParse.get_pattern`: dictionary lookup, last registration wins. -/
def get_pattern (pats : List HatchPattern) (nm : List Char) :
    Option HatchPattern :=
  (pats.filter (fun p => p.name = nm)).getLast?

end Tools

/-! ## Generic helper lemmas -/

/-- Reduce an integer ceiling to a floor, so that concrete `⌈…⌉` values can
be evaluated. -/
theorem ceil_to_floor (a : ℚ) : ⌈a⌉ = -⌊-a⌋ := by
  rw [← Int.ceil_neg, neg_neg]

/-- Membership of a point in a closed axis-aligned rectangle. -/
def inRect (x y xmin ymin xmax ymax : ℚ) : Prop :=
  xmin ≤ x ∧ x ≤ xmax ∧ ymin ≤ y ∧ y ≤ ymax

instance (x y xmin ymin xmax ymax : ℚ) :
    Decidable (inRect x y xmin ymin xmax ymax) := by
  unfold inRect; infer_instance

/-! ## Correctness of the Liang-Barsky style clipper (claim C2) -/

theorem clipLoop_eq_none_iff (ps : List (ℚ × ℚ)) :
    ∀ t0 t1 : ℚ, Tools.clipLoop ps t0 t1 = none ↔
      ∃ pq ∈ ps, pq.1 = 0 ∧ pq.2 < 0 := by
  induction ps with
  | nil => intro t0 t1; simp [Tools.clipLoop]
  | cons pq rest ih =>
    intro t0 t1
    obtain ⟨p, q⟩ := pq
    by_cases hp : p = 0
    · by_cases hq : q < 0
      · simp [Tools.clipLoop, hp, hq]
      · simp [Tools.clipLoop, hp, hq, ih]
    · rcases lt_trichotomy p 0 with h | h | h
      · simp [Tools.clipLoop, hp, h, not_le_of_lt h, ih]
      · exact absurd h hp
      · simp [Tools.clipLoop, hp, not_lt_of_lt h, ih]

theorem clipLoop_some_bounds (ps : List (ℚ × ℚ)) :
    ∀ t0 t1 a b : ℚ, Tools.clipLoop ps t0 t1 = some (a, b) →
      t0 ≤ a ∧ b ≤ t1 := by
  induction ps with
  | nil => intro t0 t1 a b h; simp [Tools.clipLoop] at h; simp [h.1, h.2]
  | cons pq rest ih =>
    intro t0 t1 a b h
    obtain ⟨p, q⟩ := pq
    by_cases hp : p = 0
    · by_cases hq : q < 0
      · simp [Tools.clipLoop, hp, hq] at h
      · simp [Tools.clipLoop, hp, hq] at h
        exact ih t0 t1 a b h
    · rcases lt_trichotomy p 0 with hlt | h0 | hgt
      · simp [Tools.clipLoop, hp, hlt] at h
        have := ih (max t0 (q / p)) t1 a b h
        exact ⟨le_trans (le_max_left _ _) this.1, this.2⟩
      · exact absurd h0 hp
      · simp [Tools.clipLoop, hp, not_lt_of_lt hgt] at h
        have := ih t0 (min t1 (q / p)) a b h
        exact ⟨this.1, le_trans this.2 (min_le_left _ _)⟩

theorem clipLoop_some_char (ps : List (ℚ × ℚ)) :
    ∀ t0 t1 a b : ℚ, Tools.clipLoop ps t0 t1 = some (a, b) →
      ∀ t : ℚ, (a ≤ t ∧ t ≤ b) ↔
        (t0 ≤ t ∧ t ≤ t1 ∧ ∀ pq ∈ ps, pq.1 * t ≤ pq.2) := by
  induction ps with
  | nil =>
    intro t0 t1 a b h t
    simp [Tools.clipLoop] at h
    simp [h.1, h.2]
  | cons pq rest ih =>
    intro t0 t1 a b h t
    obtain ⟨p, q⟩ := pq
    by_cases hp : p = 0
    · by_cases hq : q < 0
      · simp [Tools.clipLoop, hp, hq] at h
      · simp [Tools.clipLoop, hp, hq] at h
        rw [ih t0 t1 a b h t]
        push_neg at hq
        simp [hp, hq]
    · rcases lt_trichotomy p 0 with hlt | h0 | hgt
      · simp [Tools.clipLoop, hp, hlt] at h
        rw [ih (max t0 (q / p)) t1 a b h t]
        constructor
        · rintro ⟨hm, ht1, hrest⟩
          have hqp : q / p ≤ t := le_trans (le_max_right _ _) hm
          have hpt : p * t ≤ q := by
            rw [div_le_iff_of_neg hlt] at hqp
            linarith [hqp]
          refine ⟨le_trans (le_max_left _ _) hm, ht1, ?_⟩
          intro x hx
          rcases List.mem_cons.mp hx with hx | hx
          · rw [hx]; exact hpt
          · exact hrest x hx
        · rintro ⟨ht0, ht1, hall⟩
          have hpt : p * t ≤ q := hall (p, q) (List.mem_cons_self _ _)
          have hqp : q / p ≤ t := by
            rw [div_le_iff_of_neg hlt]; linarith
          exact ⟨max_le ht0 hqp, ht1, fun x hx =>
            hall x (List.mem_cons_of_mem _ hx)⟩
      · exact absurd h0 hp
      · simp [Tools.clipLoop, hp, not_lt_of_lt hgt] at h
        rw [ih t0 (min t1 (q / p)) a b h t]
        constructor
        · rintro ⟨ht0, hm, hrest⟩
          have hqp : t ≤ q / p := le_trans hm (min_le_right _ _)
          have hpt : p * t ≤ q := by
            rw [le_div_iff₀ hgt] at hqp
            linarith
          refine ⟨ht0, le_trans hm (min_le_left _ _), ?_⟩
          intro x hx
          rcases List.mem_cons.mp hx with hx | hx
          · rw [hx]; exact hpt
          · exact hrest x hx
        · rintro ⟨ht0, ht1, hall⟩
          have hpt : p * t ≤ q := hall (p, q) (List.mem_cons_self _ _)
          have hqp : t ≤ q / p := by
            rw [le_div_iff₀ hgt]; linarith
          exact ⟨ht0, le_min ht1 hqp, fun x hx =>
            hall x (List.mem_cons_of_mem _ hx)⟩

theorem constraints_iff_inRect (x1 y1 dx dy xmin ymin xmax ymax t : ℚ) :
    (∀ pq ∈ [(-dx, x1 - xmin), (dx, xmax - x1),
             (-dy, y1 - ymin), (dy, ymax - y1)], pq.1 * t ≤ pq.2) ↔
      inRect (x1 + t * dx) (y1 + t * dy) xmin ymin xmax ymax := by
  constructor
  · intro h
    have h1 := h (-dx, x1 - xmin) (by simp)
    have h2 := h (dx, xmax - x1) (by simp)
    have h3 := h (-dy, y1 - ymin) (by simp)
    have h4 := h (dy, ymax - y1) (by simp)
    simp only at h1 h2 h3 h4
    exact ⟨by nlinarith, by nlinarith, by nlinarith, by nlinarith⟩
  · rintro ⟨h1, h2, h3, h4⟩ pq hmem
    simp only [List.mem_cons, List.not_mem_nil, or_false] at hmem
    rcases hmem with h | h | h | h <;> subst h <;> simp only <;> nlinarith

theorem clip_line_unfold (x1 y1 x2 y2 xmin ymin xmax ymax : ℚ) :
    Tools.clip_line x1 y1 x2 y2 (xmin, ymin, xmax, ymax) =
      match Tools.clipLoop [(-(x2 - x1), x1 - xmin), (x2 - x1, xmax - x1),
          (-(y2 - y1), y1 - ymin), (y2 - y1, ymax - y1)] 0 1 with
      | none => none
      | some (t0, t1) =>
        if t0 > t1 then none
        else some (x1 + t0 * (x2 - x1), y1 + t0 * (y2 - y1),
                   x1 + t1 * (x2 - x1), y1 + t1 * (y2 - y1)) := rfl

/-- C2.  `HatchPattern._clip_line` is a correct Liang-Barsky style clipper:
for a rectangle with `xmin ≤ xmax` and `ymin ≤ ymax` it returns `none`
exactly when no point of the segment lies in the closed rectangle, and
otherwise it returns `(x1 + t0*dx, y1 + t0*dy)` and `(x1 + t1*dx, y1 + t1*dy)`
for some `0 ≤ t0 ≤ t1 ≤ 1`, so both returned endpoints lie on the input
segment and inside the rectangle. -/
theorem clip_line_correct (x1 y1 x2 y2 xmin ymin xmax ymax : ℚ)
    (hx : xmin ≤ xmax) (hy : ymin ≤ ymax) :
    (Tools.clip_line x1 y1 x2 y2 (xmin, ymin, xmax, ymax) = none ↔
      ∀ t : ℚ, 0 ≤ t → t ≤ 1 →
        ¬ inRect (x1 + t * (x2 - x1)) (y1 + t * (y2 - y1))
            xmin ymin xmax ymax) ∧
    (∀ a b c d : ℚ,
      Tools.clip_line x1 y1 x2 y2 (xmin, ymin, xmax, ymax) =
          some (a, b, c, d) →
        ∃ t0 t1 : ℚ, 0 ≤ t0 ∧ t0 ≤ t1 ∧ t1 ≤ 1 ∧
          a = x1 + t0 * (x2 - x1) ∧ b = y1 + t0 * (y2 - y1) ∧
          c = x1 + t1 * (x2 - x1) ∧ d = y1 + t1 * (y2 - y1) ∧
          inRect a b xmin ymin xmax ymax ∧ inRect c d xmin ymin xmax ymax) := by
  have hdx : -(x2 - x1) = -(x2 - x1) := rfl
  rw [clip_line_unfold]
  rcases hcl : Tools.clipLoop [(-(x2 - x1), x1 - xmin), (x2 - x1, xmax - x1),
      (-(y2 - y1), y1 - ymin), (y2 - y1, ymax - y1)] 0 1 with _ | ⟨t0, t1⟩
  · constructor
    · rw [clipLoop_eq_none_iff] at hcl
      obtain ⟨pq, hmem, hp0, hq0⟩ := hcl
      simp only [true_iff]
      intro t ht0 ht1 hin
      have hc := (constraints_iff_inRect x1 y1 (x2 - x1) (y2 - y1)
        xmin ymin xmax ymax t).mpr hin pq hmem
      rw [hp0] at hc
      simp at hc
      linarith
    · intro a b c d h
      simp at h
  · have hch := clipLoop_some_char _ 0 1 t0 t1 hcl
    have hbd := clipLoop_some_bounds _ 0 1 t0 t1 hcl
    by_cases hab : t0 > t1
    · simp only [hab, if_true]
      constructor
      · simp only [true_iff]
        intro t ht0 ht1 hin
        have hfeas : t0 ≤ t ∧ t ≤ t1 := by
          rw [hch t]
          exact ⟨ht0, ht1, (constraints_iff_inRect x1 y1 (x2 - x1) (y2 - y1)
            xmin ymin xmax ymax t).mpr hin⟩
        linarith [hfeas.1, hfeas.2]
      · intro a b c d h
        simp at h
    · push_neg at hab
      simp only [gt_iff_lt, not_lt.mpr hab, if_false]
      have hin0 : inRect (x1 + t0 * (x2 - x1)) (y1 + t0 * (y2 - y1))
          xmin ymin xmax ymax :=
        (constraints_iff_inRect x1 y1 (x2 - x1) (y2 - y1)
          xmin ymin xmax ymax t0).mp ((hch t0).mp ⟨le_refl _, hab⟩).2.2
      have hin1 : inRect (x1 + t1 * (x2 - x1)) (y1 + t1 * (y2 - y1))
          xmin ymin xmax ymax :=
        (constraints_iff_inRect x1 y1 (x2 - x1) (y2 - y1)
          xmin ymin xmax ymax t1).mp ((hch t1).mp ⟨hab, le_refl _⟩).2.2
      constructor
      · constructor
        · intro h; simp at h
        · intro hno
          exact absurd hin0 (hno t0 hbd.1 (le_trans hab hbd.2))
      · intro a b c d h
        simp only [Option.some.injEq, Prod.mk.injEq] at h
        refine ⟨t0, t1, hbd.1, hab, hbd.2, h.1.symm, h.2.1.symm,
          h.2.2.1.symm, h.2.2.2.symm, ?_, ?_⟩
        · rw [← h.1, ← h.2.1]; exact hin0
        · rw [← h.2.2.1, ← h.2.2.2]; exact hin1

/-- C2 witness: the clipper characterization applied to the concrete segment
`(-1,0)-(3,0)` against the unit-height rectangle `[0,2] × [0,1]`. -/
theorem clip_line_correct_witness :
    ((0 : ℚ) ≤ 2) ∧ ((0 : ℚ) ≤ 1) ∧
      (Tools.clip_line (-1) 0 3 0 (0, 0, 2, 1) = none ↔
        ∀ t : ℚ, 0 ≤ t → t ≤ 1 →
          ¬ inRect (-1 + t * (3 - -1)) (0 + t * (0 - 0)) 0 0 2 1) :=
  ⟨by norm_num, by norm_num,
    (clip_line_correct (-1) 0 3 0 0 0 2 1 (by norm_num) (by norm_num)).1⟩

/-! ## Completeness of the family index range (claim C4) -/

/-- The family offset before its 8-decimal rounding:
`delta_u * vec_u + delta_v * vec_v` componentwise. -/
def TT.famOffsetExact (cosD sinD : ℚ → ℚ) (l : TT.Line) : ℚ × ℚ :=
  let u := l.vec_u cosD sinD
  let v := l.vec_v cosD sinD
  (l.delta_u * u.1 + l.delta_v * v.1, l.delta_u * u.2 + l.delta_v * v.2)

theorem proj_lower (c s w h x y : ℚ) (hx0 : 0 ≤ x) (hxw : x ≤ w)
    (hy0 : 0 ≤ y) (hyh : y ≤ h) :
    TT.vProjMin c s w h ≤ TT.vProj c s x y := by
  unfold TT.vProjMin TT.vProj
  have m1 : min (min (0 * -s + 0 * c) (w * -s + 0 * c))
      (min (0 * -s + h * c) (w * -s + h * c)) ≤ 0 * -s + 0 * c :=
    le_trans (min_le_left _ _) (min_le_left _ _)
  have m2 : min (min (0 * -s + 0 * c) (w * -s + 0 * c))
      (min (0 * -s + h * c) (w * -s + h * c)) ≤ w * -s + 0 * c :=
    le_trans (min_le_left _ _) (min_le_right _ _)
  have m3 : min (min (0 * -s + 0 * c) (w * -s + 0 * c))
      (min (0 * -s + h * c) (w * -s + h * c)) ≤ 0 * -s + h * c :=
    le_trans (min_le_right _ _) (min_le_left _ _)
  have m4 : min (min (0 * -s + 0 * c) (w * -s + 0 * c))
      (min (0 * -s + h * c) (w * -s + h * c)) ≤ w * -s + h * c :=
    le_trans (min_le_right _ _) (min_le_right _ _)
  rcases le_total 0 (-s) with hs | hs <;> rcases le_total 0 c with hc | hc
  · nlinarith [mul_nonneg hx0 hs, mul_nonneg hy0 hc]
  · nlinarith [mul_nonneg hx0 hs, mul_le_mul_of_nonpos_right hyh hc]
  · nlinarith [mul_le_mul_of_nonpos_right hxw hs, mul_nonneg hy0 hc]
  · nlinarith [mul_le_mul_of_nonpos_right hxw hs,
      mul_le_mul_of_nonpos_right hyh hc]

theorem proj_upper (c s w h x y : ℚ) (hx0 : 0 ≤ x) (hxw : x ≤ w)
    (hy0 : 0 ≤ y) (hyh : y ≤ h) :
    TT.vProj c s x y ≤ TT.vProjMax c s w h := by
  unfold TT.vProjMax TT.vProj
  have m1 : (0 : ℚ) * -s + 0 * c ≤ max (max (0 * -s + 0 * c) (w * -s + 0 * c))
      (max (0 * -s + h * c) (w * -s + h * c)) :=
    le_trans (le_max_left _ _) (le_max_left _ _)
  have m2 : w * -s + 0 * c ≤ max (max (0 * -s + 0 * c) (w * -s + 0 * c))
      (max (0 * -s + h * c) (w * -s + h * c)) :=
    le_trans (le_max_right _ _) (le_max_left _ _)
  have m3 : (0 : ℚ) * -s + h * c ≤ max (max (0 * -s + 0 * c) (w * -s + 0 * c))
      (max (0 * -s + h * c) (w * -s + h * c)) :=
    le_trans (le_max_left _ _) (le_max_right _ _)
  have m4 : w * -s + h * c ≤ max (max (0 * -s + 0 * c) (w * -s + 0 * c))
      (max (0 * -s + h * c) (w * -s + h * c)) :=
    le_trans (le_max_right _ _) (le_max_right _ _)
  rcases le_total 0 (-s) with hs | hs <;> rcases le_total 0 c with hc | hc
  · nlinarith [mul_le_mul_of_nonneg_right hxw hs,
      mul_le_mul_of_nonneg_right hyh hc]
  · nlinarith [mul_le_mul_of_nonneg_right hxw hs, mul_nonpos_of_nonneg_of_nonpos hy0 hc]
  · nlinarith [mul_nonpos_of_nonneg_of_nonpos hx0 hs,
      mul_le_mul_of_nonneg_right hyh hc]
  · nlinarith [mul_nonpos_of_nonneg_of_nonpos hx0 hs,
      mul_nonpos_of_nonneg_of_nonpos hy0 hc]

/-- C4 (amended).  With the family offset taken before its 8-decimal
rounding: if the direction is a unit vector, `|delta_v| ≥ 1e-9`, and the
raw index range is not clamped, then every integer `k` whose line
`P_k + t·u` meets the rectangle `[0,w] × [0,h]` satisfies
`k_min ≤ k ≤ k_max`. -/
theorem kRange_complete (cosD sinD : ℚ → ℚ) (lf : TT.Line) (w h t : ℚ)
    (k : ℤ)
    (hunit : cosD lf.angle_deg ^ 2 + sinD lf.angle_deg ^ 2 = 1)
    (hdv : epsQ ≤ |lf.delta_v|)
    (hnoclamp : (TT.kRangeRaw cosD sinD w h lf).2 -
      (TT.kRangeRaw cosD sinD w h lf).1 ≤ TT.MAX_LINES_PER_FAMILY)
    (hhit : inRect
      (lf.origin_x + (k : ℚ) * (TT.famOffsetExact cosD sinD lf).1 +
        t * (lf.vec_u cosD sinD).1)
      (lf.origin_y + (k : ℚ) * (TT.famOffsetExact cosD sinD lf).2 +
        t * (lf.vec_u cosD sinD).2) 0 0 w h) :
    (TT.kRange cosD sinD w h lf).1 ≤ k ∧
      k ≤ (TT.kRange cosD sinD w h lf).2 := by
  have hkr : TT.kRange cosD sinD w h lf = TT.kRangeRaw cosD sinD w h lf := by
    unfold TT.kRange
    simp only [gt_iff_lt, if_neg (not_lt.mpr hnoclamp)]
  rw [hkr]
  set c := cosD lf.angle_deg with hc
  set s := sinD lf.angle_deg with hs
  set dv := lf.delta_v with hdvv
  have hdvpos : 0 < |dv| := lt_of_lt_of_le (by norm_num [epsQ]) hdv
  have hdvne : dv ≠ 0 := by
    intro h0; rw [h0] at hdvpos; simp at hdvpos
  have hnotlt : ¬ |dv| < epsQ := not_lt.mpr hdv
  set X := lf.origin_x + (k : ℚ) * (TT.famOffsetExact cosD sinD lf).1 +
    t * (lf.vec_u cosD sinD).1 with hX
  set Y := lf.origin_y + (k : ℚ) * (TT.famOffsetExact cosD sinD lf).2 +
    t * (lf.vec_u cosD sinD).2 with hY
  obtain ⟨hX0, hXw, hY0, hYh⟩ := hhit
  -- the projection of the hit point onto vec_v
  have hproj : TT.vProj c s X Y =
      TT.vProj c s lf.origin_x lf.origin_y + (k : ℚ) * dv := by
    rw [hX, hY]
    unfold TT.vProj TT.famOffsetExact TT.Line.vec_u TT.Line.vec_v
    simp only
    rw [← hc, ← hs, ← hdvv]
    linear_combination ((k : ℚ) * dv) * hunit
  have hlow : TT.vProjMin c s w h ≤
      TT.vProj c s lf.origin_x lf.origin_y + (k : ℚ) * dv := by
    rw [← hproj]; exact proj_lower c s w h X Y hX0 hXw hY0 hYh
  have hupp : TT.vProj c s lf.origin_x lf.origin_y + (k : ℚ) * dv ≤
      TT.vProjMax c s w h := by
    rw [← hproj]; exact proj_upper c s w h X Y hX0 hXw hY0 hYh
  have hAB : TT.vProjMin c s w h ≤ TT.vProjMax c s w h :=
    le_trans (proj_lower c s w h 0 0 (le_refl 0) (by linarith) (le_refl 0)
      (by linarith)) (proj_upper c s w h 0 0 (le_refl 0) (by linarith)
      (le_refl 0) (by linarith))
  have hkrr : TT.kRangeRaw cosD sinD w h lf =
      (⌊min ((TT.vProjMin c s w h - TT.vProj c s lf.origin_x lf.origin_y) / dv)
            ((TT.vProjMax c s w h - TT.vProj c s lf.origin_x lf.origin_y) / dv)⌋,
       ⌈max ((TT.vProjMin c s w h - TT.vProj c s lf.origin_x lf.origin_y) / dv)
            ((TT.vProjMax c s w h - TT.vProj c s lf.origin_x lf.origin_y) / dv)⌉) := by
    unfold TT.kRangeRaw
    rw [← hc, ← hs, ← hdvv]
    simp only [if_neg hnotlt]
  rw [hkrr]
  set A := TT.vProjMin c s w h with hA
  set B := TT.vProjMax c s w h with hB
  set o := TT.vProj c s lf.origin_x lf.origin_y with ho
  rcases lt_or_gt_of_ne hdvne with hneg | hpos
  · -- dv < 0 : val2 ≤ val1
    have hv21 : (B - o) / dv ≤ (A - o) / dv :=
      div_le_div_of_nonpos_of_le (le_of_lt hneg) (by linarith)
    have hmin : min ((A - o) / dv) ((B - o) / dv) = (B - o) / dv :=
      min_eq_right hv21
    have hmax : max ((A - o) / dv) ((B - o) / dv) = (A - o) / dv :=
      max_eq_left hv21
    rw [hmin, hmax]
    constructor
    · have hk : (B - o) / dv ≤ (k : ℚ) := by
        rw [div_le_iff_of_neg hneg]; linarith
      calc ⌊(B - o) / dv⌋ ≤ ⌊(k : ℚ)⌋ := Int.floor_le_floor hk
        _ = k := Int.floor_intCast k
    · have hk : (k : ℚ) ≤ (A - o) / dv := by
        rw [le_div_iff_of_neg hneg]; linarith
      calc k = ⌈(k : ℚ)⌉ := (Int.ceil_intCast k).symm
        _ ≤ ⌈(A - o) / dv⌉ := Int.ceil_le_ceil hk
  · -- dv > 0 : val1 ≤ val2
    have hv12 : (A - o) / dv ≤ (B - o) / dv :=
      div_le_div_of_nonneg_right (by linarith) hpos.le
    have hmin : min ((A - o) / dv) ((B - o) / dv) = (A - o) / dv :=
      min_eq_left hv12
    have hmax : max ((A - o) / dv) ((B - o) / dv) = (B - o) / dv :=
      max_eq_right hv12
    rw [hmin, hmax]
    constructor
    · have hk : (A - o) / dv ≤ (k : ℚ) := by
        rw [div_le_iff₀ hpos]; linarith
      calc ⌊(A - o) / dv⌋ ≤ ⌊(k : ℚ)⌋ := Int.floor_le_floor hk
        _ = k := Int.floor_intCast k
    · have hk : (k : ℚ) ≤ (B - o) / dv := by
        rw [le_div_iff₀ hpos]; linarith
      calc k = ⌈(k : ℚ)⌉ := (Int.ceil_intCast k).symm
        _ ≤ ⌈(B - o) / dv⌉ := Int.ceil_le_ceil hk

/-- Line family used in the C4 witness. -/
def c4wlf : TT.Line := ⟨0, 0, 1/2, 0, 1, []⟩

/-- C4 witness: the completeness bound applied to a horizontal family with
`delta_v = 1` on the square `[0,2]^2`, at `k = 0`, `t = 1`. -/
theorem kRange_complete_witness :
    (rightCos c4wlf.angle_deg ^ 2 + rightSin c4wlf.angle_deg ^ 2 = 1) ∧
    (epsQ ≤ |c4wlf.delta_v|) ∧
    ((TT.kRangeRaw rightCos rightSin 2 2 c4wlf).2 -
      (TT.kRangeRaw rightCos rightSin 2 2 c4wlf).1 ≤ TT.MAX_LINES_PER_FAMILY) ∧
    inRect
      (c4wlf.origin_x + ((0 : ℤ) : ℚ) * (TT.famOffsetExact rightCos rightSin c4wlf).1 +
        1 * (TT.Line.vec_u rightCos rightSin c4wlf).1)
      (c4wlf.origin_y + ((0 : ℤ) : ℚ) * (TT.famOffsetExact rightCos rightSin c4wlf).2 +
        1 * (TT.Line.vec_u rightCos rightSin c4wlf).2) 0 0 2 2 ∧
    ((TT.kRange rightCos rightSin 2 2 c4wlf).1 ≤ 0 ∧
      (0 : ℤ) ≤ (TT.kRange rightCos rightSin 2 2 c4wlf).2) := by
  have h1 : rightCos c4wlf.angle_deg ^ 2 + rightSin c4wlf.angle_deg ^ 2 = 1 := by
    norm_num [c4wlf, rightCos, rightSin, qmod]
  have h2 : epsQ ≤ |c4wlf.delta_v| := by norm_num [c4wlf, epsQ]
  have h3 : (TT.kRangeRaw rightCos rightSin 2 2 c4wlf).2 -
      (TT.kRangeRaw rightCos rightSin 2 2 c4wlf).1 ≤ TT.MAX_LINES_PER_FAMILY := by
    norm_num [c4wlf, TT.kRangeRaw, TT.vProjMin, TT.vProjMax, TT.vProj,
      rightCos, rightSin, qmod, epsQ, TT.MAX_LINES_PER_FAMILY, ceil_to_floor]
  have h4 : inRect
      (c4wlf.origin_x + ((0 : ℤ) : ℚ) * (TT.famOffsetExact rightCos rightSin c4wlf).1 +
        1 * (TT.Line.vec_u rightCos rightSin c4wlf).1)
      (c4wlf.origin_y + ((0 : ℤ) : ℚ) * (TT.famOffsetExact rightCos rightSin c4wlf).2 +
        1 * (TT.Line.vec_u rightCos rightSin c4wlf).2) 0 0 2 2 := by
    norm_num [c4wlf, inRect, TT.famOffsetExact, TT.Line.vec_u, TT.Line.vec_v,
      rightCos, rightSin, qmod]
  exact ⟨h1, h2, h3, h4, kRange_complete rightCos rightSin c4wlf 2 2 1 0 h1 h2 h3 h4⟩

/-- Line family of the C4 counterexample: `delta_v = 1e-9`, whose rounded
family offset collapses to `(0, 0)`. -/
def c4lf : TT.Line := ⟨0, 0, 0, 0, epsQ, []⟩

/-- C4 counterexample (claim as stated, with the rounded `get_family_offset`
of the code): for the family `(angle 0, origin (0,0), delta_u 0,
delta_v 1e-9)` on the box `[0,1e-6]^2`, the range is `k_min = 0,
k_max = 1000` (no clamping), yet the line `k = 2000` through
`P_k = origin + k * family_offset` — which the 8-decimal rounding collapses
to the origin — meets the box at `t = 0`, and `2000` is outside the range. -/
theorem kRange_complete_counterexample :
    epsQ ≤ |c4lf.delta_v| ∧
    ((TT.kRangeRaw rightCos rightSin (1/1000000) (1/1000000) c4lf).2 -
      (TT.kRangeRaw rightCos rightSin (1/1000000) (1/1000000) c4lf).1 ≤
      TT.MAX_LINES_PER_FAMILY) ∧
    inRect
      (c4lf.origin_x + ((2000 : ℤ) : ℚ) *
        (TT.Line.get_family_offset rightCos rightSin c4lf).1 +
        0 * (TT.Line.vec_u rightCos rightSin c4lf).1)
      (c4lf.origin_y + ((2000 : ℤ) : ℚ) *
        (TT.Line.get_family_offset rightCos rightSin c4lf).2 +
        0 * (TT.Line.vec_u rightCos rightSin c4lf).2)
      0 0 (1/1000000) (1/1000000) ∧
    ¬ ((TT.kRange rightCos rightSin (1/1000000) (1/1000000) c4lf).1 ≤ 2000 ∧
        (2000 : ℤ) ≤ (TT.kRange rightCos rightSin (1/1000000) (1/1000000) c4lf).2) := by
  refine ⟨by norm_num [c4lf, epsQ, abs_of_pos], ?_, ?_, ?_⟩
  · norm_num [c4lf, TT.kRangeRaw, TT.vProjMin, TT.vProjMax, TT.vProj,
      rightCos, rightSin, qmod, epsQ, TT.MAX_LINES_PER_FAMILY, ceil_to_floor,
      abs_of_pos]
  · norm_num [c4lf, inRect, TT.Line.get_family_offset, TT.Line.vec_u,
      TT.Line.vec_v, rightCos, rightSin, qmod, round8, roundHalfEven, epsQ]
  · norm_num [c4lf, TT.kRange, TT.kRangeRaw, TT.vProjMin, TT.vProjMax,
      TT.vProj, rightCos, rightSin, qmod, epsQ, TT.MAX_LINES_PER_FAMILY,
      ceil_to_floor, abs_of_pos]

/-! ## Dash-walk lemmas (selection, phase, termination) -/

theorem qmod_nonneg (a b : ℚ) (hb : 0 < b) : 0 ≤ qmod a b := by
  unfold qmod
  have h := Int.floor_le (a / b)
  have : b * (⌊a / b⌋ : ℚ) ≤ b * (a / b) := by
    exact mul_le_mul_of_nonneg_left h (le_of_lt hb)
  rw [mul_div_cancel₀ a (ne_of_gt hb)] at this
  linarith

theorem qmod_lt (a b : ℚ) (hb : 0 < b) : qmod a b < b := by
  unfold qmod
  have h := Int.lt_floor_add_one (a / b)
  have : b * (a / b) < b * ((⌊a / b⌋ : ℚ) + 1) :=
    mul_lt_mul_of_pos_left h hb
  rw [mul_div_cancel₀ a (ne_of_gt hb)] at this
  linarith [this]

theorem selAux_spec (d0 : ℚ) : ∀ (ds : List ℚ) (φ acc : ℚ), acc ≤ φ →
    φ < acc + (ds.map (fun d => |d|)).sum →
    (TT.selAux d0 φ ds acc).2 ≤ φ ∧
    φ < (TT.selAux d0 φ ds acc).2 + |(TT.selAux d0 φ ds acc).1| ∧
    (TT.selAux d0 φ ds acc).2 + |(TT.selAux d0 φ ds acc).1| ≤
      acc + (ds.map (fun d => |d|)).sum := by
  intro ds
  induction ds with
  | nil =>
    intro φ acc h1 h2
    simp at h2
    linarith
  | cons d rest ih =>
    intro φ acc h1 h2
    by_cases hbr : acc + |d| > φ
    · simp only [TT.selAux, if_pos hbr]
      refine ⟨h1, hbr, ?_⟩
      simp only [List.map_cons, List.sum_cons]
      have : 0 ≤ (rest.map (fun d => |d|)).sum := by
        apply List.sum_nonneg
        intro x hx
        simp only [List.mem_map] at hx
        obtain ⟨y, _, hy⟩ := hx
        rw [← hy]; exact abs_nonneg y
      linarith
    · push_neg at hbr
      simp only [TT.selAux, if_neg (not_lt.mpr hbr)]
      have h2' : φ < (acc + |d|) + (rest.map (fun d => |d|)).sum := by
        simp only [List.map_cons, List.sum_cons] at h2
        linarith
      have := ih φ (acc + |d|) hbr h2'
      refine ⟨this.1, this.2.1, ?_⟩
      simp only [List.map_cons, List.sum_cons]
      linarith [this.2.2]

/-- The active dash at a phase inside the cycle: its start is at most the
phase, the phase is strictly inside it, and it ends within the cycle. -/
theorem selectDash_spec (dashes : List ℚ) (φ : ℚ) (h0 : 0 ≤ φ)
    (hL : φ < TT.loopLen dashes) :
    (TT.selectDash dashes φ).2 ≤ φ ∧
    φ < (TT.selectDash dashes φ).2 + |(TT.selectDash dashes φ).1| ∧
    (TT.selectDash dashes φ).2 + |(TT.selectDash dashes φ).1| ≤
      TT.loopLen dashes := by
  have := selAux_spec (dashes.headD 0) dashes φ 0 h0
    (by simpa [TT.loopLen] using hL)
  unfold TT.selectDash
  refine ⟨this.1, this.2.1, ?_⟩
  have h := this.2.2
  simpa [TT.loopLen] using h

/-- One iteration of the dash walk advances `current_t` by at least `1e-9`
and takes a positive step. -/
theorem walk_step_pos (dashes : List ℚ) (t e : ℚ) (hL : 0 < TT.loopLen dashes)
    (hte : t < e) :
    0 < min (|(TT.selectDash dashes (qmod t (TT.loopLen dashes))).1| -
        (qmod t (TT.loopLen dashes) -
          (TT.selectDash dashes (qmod t (TT.loopLen dashes))).2)) (e - t) := by
  have hφ0 := qmod_nonneg t (TT.loopLen dashes) hL
  have hφL := qmod_lt t (TT.loopLen dashes) hL
  have hs := selectDash_spec dashes (qmod t (TT.loopLen dashes)) hφ0 hφL
  apply lt_min
  · linarith [hs.2.1]
  · linarith

theorem gdsbAux_some_of_fuel (dashes : List ℚ) (e : ℚ)
    (hL : 0 < TT.loopLen dashes) :
    ∀ (fuel : ℕ) (t : ℚ), (⌈(e - t) * 1000000000⌉).toNat < fuel →
      ∃ l, TT.gdsbAux dashes e fuel t = some l := by
  intro fuel
  induction fuel with
  | zero => intro t h; omega
  | succ f ih =>
    intro t hfuel
    by_cases hte : t < e
    · have hstep := walk_step_pos dashes t e hL hte
      set L := TT.loopLen dashes with hLdef
      set φ := qmod t L with hφdef
      set sel := TT.selectDash dashes φ with hseldef
      set step := min (|sel.1| - (φ - sel.2)) (e - t) with hstepdef
      have hstep' : 0 < step := hstep
      set tNext := t + step + (if step < epsQ then epsQ else 0) with htN
      have hadv : t + epsQ ≤ tNext := by
        by_cases hse : step < epsQ
        · rw [htN, if_pos hse]; linarith
        · rw [htN, if_neg hse]; push_neg at hse; linarith
      have hfuel' : (⌈(e - tNext) * 1000000000⌉).toNat < f := by
        have h1 : (e - tNext) * 1000000000 ≤ (e - t) * 1000000000 - 1 := by
          have : e - tNext ≤ e - t - epsQ := by linarith
          have h2 : (e - tNext) * 1000000000 ≤ (e - t - epsQ) * 1000000000 := by
            nlinarith
          have h3 : (e - t - epsQ) * 1000000000 = (e - t) * 1000000000 - 1 := by
            unfold epsQ; ring
          linarith
        have hc1 : ⌈(e - tNext) * 1000000000⌉ ≤ ⌈(e - t) * 1000000000 - 1⌉ :=
          Int.ceil_le_ceil h1
        have hc2 : ⌈(e - t) * 1000000000 - (1 : ℚ)⌉ =
            ⌈(e - t) * 1000000000⌉ - 1 := by
          rw [show ((1 : ℚ)) = ((1 : ℤ) : ℚ) by norm_num, Int.ceil_sub_int]
        have hpos : (1 : ℤ) ≤ ⌈(e - t) * 1000000000⌉ := by
          apply Int.le_ceil_iff.mpr
          push_cast
          nlinarith
        omega
      obtain ⟨l, hl⟩ := ih tNext hfuel'
      refine ⟨(if sel.1 > 0 ∧ step > epsQ then [(t, t + step)] else []) ++ l, ?_⟩
      simp only [TT.gdsbAux, if_pos hte]
      rw [← hLdef, ← hφdef, ← hseldef, ← hstepdef, ← htN, hl]
      simp
    · exact ⟨[], by simp [TT.gdsbAux, hte]⟩

/-- C10.  The dash-segment loop always terminates: when the total absolute
dash length is zero `_get_dashed_segments_basis` returns `[]` immediately,
and otherwise every iteration advances `current_t` by at least `1e-9` (the
epsilon nudge covers steps smaller than that), so the walk finishes within
the explicit fuel `fuelFor t_start t_end`. -/
theorem gdsb_terminates (px py : ℚ) (u : ℚ × ℚ) (tStart tEnd : ℚ)
    (dashes : List ℚ) :
    (TT.loopLen dashes = 0 →
      TT.getDashedSegmentsBasis px py u tStart tEnd dashes = []) ∧
    (0 < TT.loopLen dashes →
      TT.gdsbAux dashes tEnd (TT.fuelFor tStart tEnd) tStart ≠ none) := by
  constructor
  · intro h0
    unfold TT.getDashedSegmentsBasis
    simp [h0]
  · intro hL
    obtain ⟨l, hl⟩ := gdsbAux_some_of_fuel dashes tEnd hL
      (TT.fuelFor tStart tEnd) tStart (by unfold TT.fuelFor; omega)
    rw [hl]
    simp

/-- C10 witness: termination of the walk for the dash list `[1, -1]` over
the window `[0, 2]`. -/
theorem gdsb_terminates_witness :
    (0 : ℚ) < TT.loopLen [1, -1] ∧
      TT.gdsbAux [1, -1] 2 (TT.fuelFor 0 2) 0 ≠ none := by
  have h : (0 : ℚ) < TT.loopLen [1, -1] := by norm_num [TT.loopLen]
  exact ⟨h, (gdsb_terminates 0 0 (1, 0) 0 2 [1, -1]).2 h⟩

/-- The dash cycle length is nonnegative. -/
theorem loopLen_nonneg (dashes : List ℚ) : 0 ≤ TT.loopLen dashes := by
  unfold TT.loopLen
  apply List.sum_nonneg
  intro x hx
  simp only [List.mem_map] at hx
  obtain ⟨y, _, hy⟩ := hx
  rw [← hy]; exact abs_nonneg y

/-- Every drawn `t`-interval of the dash walk lies inside the window and is
nondegenerate: `t ≤ a < b ≤ e`. -/
theorem gdsbAux_pieces_bounds (dashes : List ℚ) (e : ℚ)
    (hL : 0 < TT.loopLen dashes) :
    ∀ (fuel : ℕ) (t : ℚ) (l : List (ℚ × ℚ)),
      TT.gdsbAux dashes e fuel t = some l →
      ∀ p ∈ l, t ≤ p.1 ∧ p.1 < p.2 ∧ p.2 ≤ e := by
  intro fuel
  induction fuel with
  | zero => intro t l h; simp [TT.gdsbAux] at h
  | succ f ih =>
    intro t l h p hp
    by_cases hte : t < e
    · have hstep := walk_step_pos dashes t e hL hte
      simp only [TT.gdsbAux, if_pos hte] at h
      set L := TT.loopLen dashes with hLdef
      set φ := qmod t L with hφdef
      set sel := TT.selectDash dashes φ with hseldef
      set step := min (|sel.1| - (φ - sel.2)) (e - t) with hstepdef
      have hstep' : 0 < step := hstep
      have hstepe : step ≤ e - t := min_le_right _ _
      set tNext := t + step + (if step < epsQ then epsQ else 0) with htN
      rw [Option.map_eq_some'] at h
      obtain ⟨rest, hrest, hl⟩ := h
      subst hl
      rw [List.mem_append] at hp
      rcases hp with hp | hp
      · by_cases hdraw : sel.1 > 0 ∧ step > epsQ
        · rw [if_pos hdraw] at hp
          simp only [List.mem_singleton] at hp
          subst hp
          exact ⟨le_refl _, by simp only; linarith, by simp only; linarith⟩
        · rw [if_neg hdraw] at hp
          simp at hp
      · have hb := ih tNext rest hrest p hp
        have hmono : t ≤ tNext := by
          rw [htN]
          by_cases hse : step < epsQ
          · rw [if_pos hse]; norm_num [epsQ]; linarith
          · rw [if_neg hse]; linarith
        exact ⟨le_trans hmono hb.1, hb.2.1, hb.2.2⟩
    · simp only [TT.gdsbAux, if_neg hte, Option.some.injEq] at h
      subst h
      simp at hp

/-! ## Segments are parallel to their family direction (claim C8) -/

theorem toSeg_dir (px py : ℚ) (u : ℚ × ℚ) (p : ℚ × ℚ) (hle : p.1 ≤ p.2) :
    ∃ c : ℚ, 0 ≤ c ∧
      (TT.toSeg px py u p).x2 - (TT.toSeg px py u p).x1 = c * u.1 ∧
      (TT.toSeg px py u p).y2 - (TT.toSeg px py u p).y1 = c * u.2 :=
  ⟨p.2 - p.1, by linarith, by unfold TT.toSeg; simp only; ring,
    by unfold TT.toSeg; simp only; ring⟩

theorem gdsb_dir (px py : ℚ) (u : ℚ × ℚ) (tEn tEx : ℚ) (dashes : List ℚ) :
    ∀ seg ∈ TT.getDashedSegmentsBasis px py u tEn tEx dashes,
      ∃ c : ℚ, 0 ≤ c ∧ seg.x2 - seg.x1 = c * u.1 ∧
        seg.y2 - seg.y1 = c * u.2 := by
  intro seg hmem
  unfold TT.getDashedSegmentsBasis at hmem
  by_cases hL : TT.loopLen dashes = 0
  · simp [hL] at hmem
  · rw [if_neg hL] at hmem
    rw [List.mem_map] at hmem
    obtain ⟨p, hp, hseg⟩ := hmem
    have hLpos : 0 < TT.loopLen dashes :=
      lt_of_le_of_ne (loopLen_nonneg dashes) (Ne.symm hL)
    unfold TT.dashPieces at hp
    rcases haux : TT.gdsbAux dashes tEx (TT.fuelFor tEn tEx) tEn with _ | l
    · rw [haux] at hp; simp at hp
    · rw [haux] at hp
      simp only [Option.getD_some] at hp
      have hb := gdsbAux_pieces_bounds dashes tEx hLpos _ tEn l haux p hp
      rw [← hseg]
      exact toSeg_dir px py u p (le_of_lt hb.2.1)

theorem segsForK_dir (u : ℚ × ℚ) (w h px py : ℚ) (dashes : List ℚ) :
    ∀ seg ∈ TT.segsForK u w h px py dashes,
      ∃ c : ℚ, 0 ≤ c ∧ seg.x2 - seg.x1 = c * u.1 ∧
        seg.y2 - seg.y1 = c * u.2 := by
  intro seg hmem
  unfold TT.segsForK at hmem
  by_cases h1 : |u.1| < epsQ
  · rw [if_pos h1] at hmem
    by_cases h2 : px < 0 ∨ w < px
    · simp [h2] at hmem
    · rw [if_neg h2] at hmem
      by_cases h3 : |u.2| < epsQ
      · simp [h3] at hmem
      · rw [if_neg h3] at hmem
        by_cases h4 : dashes = []
        · rw [if_pos h4] at hmem
          simp only [List.mem_singleton] at hmem
          subst hmem
          exact toSeg_dir px py u _ (min_le_max)
        · rw [if_neg h4] at hmem
          exact gdsb_dir px py u _ _ dashes seg hmem
  · rw [if_neg h1] at hmem
    by_cases h3 : |u.2| < epsQ
    · rw [if_pos h3] at hmem
      by_cases h2 : py < 0 ∨ h < py
      · simp [h2] at hmem
      · rw [if_neg h2] at hmem
        by_cases h4 : dashes = []
        · rw [if_pos h4] at hmem
          simp only [List.mem_singleton] at hmem
          subst hmem
          exact toSeg_dir px py u _ (min_le_max)
        · rw [if_neg h4] at hmem
          exact gdsb_dir px py u _ _ dashes seg hmem
    · rw [if_neg h3] at hmem
      by_cases h5 : max ((0 - px) / u.1 ⊓ (w - px) / u.1)
          ((0 - py) / u.2 ⊓ (h - py) / u.2) ≤
          min ((0 - px) / u.1 ⊔ (w - px) / u.1)
          ((0 - py) / u.2 ⊔ (h - py) / u.2)
      · rw [if_pos h5] at hmem
        by_cases h4 : dashes = []
        · rw [if_pos h4] at hmem
          simp only [List.mem_singleton] at hmem
          subst hmem
          exact toSeg_dir px py u _ h5
        · rw [if_neg h4] at hmem
          exact gdsb_dir px py u _ _ dashes seg hmem
      · rw [if_neg h5] at hmem
        simp at hmem

/-- C8.  Every segment emitted by `Pattern.generate_drawing_instructions`
belongs to one of the session (rotated/scaled) line families, and its
difference vector is a nonnegative scalar multiple of that family's
direction `(cos a, sin a)`. -/
theorem segments_parallel (cosD sinD : ℚ → ℚ) (p : TT.Pattern) (width : ℚ)
    (heightO scaleO : Option ℚ) (rotation : ℚ) (seg : Seg)
    (hmem : seg ∈ p.generate_drawing_instructions cosD sinD width heightO
      scaleO rotation) :
    ∃ lf ∈ p.sessionLines cosD sinD width heightO scaleO rotation,
      ∃ c : ℚ, 0 ≤ c ∧ seg.x2 - seg.x1 = c * cosD lf.angle_deg ∧
        seg.y2 - seg.y1 = c * sinD lf.angle_deg := by
  unfold TT.Pattern.generate_drawing_instructions at hmem
  by_cases hl : p.lines = []
  · simp [hl] at hmem
  · rw [if_neg hl] at hmem
    rw [List.mem_flatMap] at hmem
    obtain ⟨lf, hlf, hseg⟩ := hmem
    refine ⟨lf, hlf, ?_⟩
    unfold TT.famSegments at hseg
    rw [List.mem_flatMap] at hseg
    obtain ⟨k, _, hseg⟩ := hseg
    exact segsForK_dir (lf.vec_u cosD sinD) width (heightO.getD width) _ _
      lf.dashes seg hseg

/-- C8 witness: the horizontal family of `c4wlf` emits the segment
`(0,1/2)-(2,1/2)`, a nonnegative multiple of its direction. -/
theorem segments_parallel_witness :
    (⟨0, 1/2, 2, 1/2⟩ : Seg) ∈
      TT.Pattern.generate_drawing_instructions rightCos rightSin
        ⟨"P".toList, "demo".toList, false, "Drafting", [c4wlf]⟩ 2 none
        (some 1) 0 ∧
    ∃ lf ∈ TT.Pattern.sessionLines rightCos rightSin
        ⟨"P".toList, "demo".toList, false, "Drafting", [c4wlf]⟩ 2 none
        (some 1) 0,
      ∃ c : ℚ, 0 ≤ c ∧ (2 : ℚ) - 0 = c * rightCos lf.angle_deg ∧
        (1/2 : ℚ) - 1/2 = c * rightSin lf.angle_deg := by
  have hmem : (⟨0, 1/2, 2, 1/2⟩ : Seg) ∈
      TT.Pattern.generate_drawing_instructions rightCos rightSin
        ⟨"P".toList, "demo".toList, false, "Drafting", [c4wlf]⟩ 2 none
        (some 1) 0 := by
    norm_num [c4wlf, TT.Pattern.generate_drawing_instructions,
      TT.Pattern.sessionLines, TT.famSegments, TT.Line.vec_u, TT.Line.vec_v,
      TT.Line.get_family_offset, TT.kRange, TT.kRangeRaw, TT.vProjMin,
      TT.vProjMax, TT.vProj, TT.segsForK, TT.toSeg, TT.MAX_LINES_PER_FAMILY,
      rightCos, rightSin, qmod, round8, roundHalfEven, epsQ, List.range,
      List.range.loop, ceil_to_floor]
  have h := segments_parallel rightCos rightSin
    ⟨"P".toList, "demo".toList, false, "Drafting", [c4wlf]⟩ 2 none (some 1) 0
    ⟨0, 1/2, 2, 1/2⟩ hmem
  exact ⟨hmem, by simpa using h⟩

/-! ## Output size bound per line family (claim C9) -/

theorem segsForK_length_le (u : ℚ × ℚ) (w h px py : ℚ) :
    (TT.segsForK u w h px py []).length ≤ 1 := by
  unfold TT.segsForK
  by_cases h1 : |u.1| < epsQ <;> by_cases h3 : |u.2| < epsQ <;>
    simp [h1, h3] <;> split <;> simp <;> split <;> simp

theorem flatMap_length_le {α β : Type} (l : List α) (f : α → List β)
    (hb : ∀ a ∈ l, (f a).length ≤ 1) : (l.flatMap f).length ≤ l.length := by
  induction l with
  | nil => simp
  | cons a rest ih =>
    simp only [List.flatMap_cons, List.length_append, List.length_cons]
    have h1 := hb a (List.mem_cons_self a rest)
    have hr := ih (fun x hx => hb x (List.mem_cons_of_mem _ hx))
    omega

/-- C9.  For a line family with an empty dash list the per-family generator
emits at most `MAX_LINES_PER_FAMILY + 1 = 4097` segments, however small
`delta_v` is, because the index range is clamped. -/
theorem famSegments_length_le (cosD sinD : ℚ → ℚ) (w h : ℚ) (lf : TT.Line)
    (hd : lf.dashes = []) :
    (TT.famSegments cosD sinD w h lf).length ≤ 4097 := by
  have hket : ((TT.kRange cosD sinD w h lf).2 + 1 -
      (TT.kRange cosD sinD w h lf).1).toNat ≤ 4097 := by
    unfold TT.kRange
    by_cases hcl : (TT.kRangeRaw cosD sinD w h lf).2 -
        (TT.kRangeRaw cosD sinD w h lf).1 > TT.MAX_LINES_PER_FAMILY
    · rw [if_pos hcl]
      simp only [TT.MAX_LINES_PER_FAMILY]
      omega
    · rw [if_neg hcl]
      push_neg at hcl
      unfold TT.MAX_LINES_PER_FAMILY at hcl
      omega
  unfold TT.famSegments
  refine le_trans (flatMap_length_le _ _ ?_) ?_
  · intro a ha
    rw [hd]
    exact segsForK_length_le _ _ _ _ _
  · simp only [List.length_map, List.length_range]
    exact hket

/-- C9 witness: the family `c4wlf` has no dashes and its generated segment
count is within the bound. -/
theorem famSegments_length_le_witness :
    c4wlf.dashes = [] ∧
      (TT.famSegments rightCos rightSin 2 2 c4wlf).length ≤ 4097 :=
  ⟨rfl, famSegments_length_le rightCos rightSin 2 2 c4wlf rfl⟩

/-! ## The two pat_lib variants are not the same generator (claim C1) -/

/-- A two-line `.pat` content: header `*P, demo` and the single data line
`0, 0, 0.5, 0, 1`. -/
def cexPatLines : List (List Char) :=
  ["*P, demo".toList, "0, 0, 0.5, 0, 1".toList]

theorem cex_tt_parse : TT.parseStream cexPatLines =
    [⟨"P".toList, "demo".toList, false, "Drafting", [⟨0, 0, 1/2, 0, 1, []⟩]⟩] := by
  simp [cexPatLines, TT.parseStream, TT.parseStep, TT.scanMetric,
    TT.ttParseNums, beginsWith, toUpperL, headerName, headerDesc, charTrim,
    pyIsSpace, splitCh, pyFloatQ, parseUnsignedQ, digitsToNat, updateLast,
    List.mapM, List.mapM.loop, Option.bind, List.getD,
    List.dropWhile, List.takeWhile, Char.isDigit]
  norm_num

theorem cex_tools_parse : Tools.parse_string cexPatLines =
    [⟨"P".toList, "demo".toList, [⟨0, (0, 1/2), (0, 1), []⟩]⟩] := by
  simp [cexPatLines, Tools.parse_string, Tools.parseStep, beginsWith,
    headerName, headerDesc, charTrim, pyIsSpace, splitCh, pyFloatQ,
    parseUnsignedQ, digitsToNat, updateLast, List.mapM, List.mapM.loop,
    Option.bind, List.dropWhile, List.takeWhile, Char.isDigit]
  norm_num

theorem cex_tt_generate :
    TT.Pattern.generate_drawing_instructions rightCos rightSin
      ⟨"P".toList, "demo".toList, false, "Drafting", [⟨0, 0, 1/2, 0, 1, []⟩]⟩
      2 none (some 1) 0 = [⟨0, 1/2, 2, 1/2⟩, ⟨0, 3/2, 2, 3/2⟩] := by
  norm_num [TT.Pattern.generate_drawing_instructions, TT.Pattern.sessionLines,
    TT.famSegments, TT.Line.vec_u, TT.Line.vec_v, TT.Line.get_family_offset,
    TT.kRange, TT.kRangeRaw, TT.vProjMin, TT.vProjMax, TT.vProj, TT.segsForK,
    TT.toSeg, TT.MAX_LINES_PER_FAMILY, rightCos, rightSin, qmod, round8,
    roundHalfEven, epsQ, List.range, List.range.loop,
    TT.getDashedSegmentsBasis, ceil_to_floor]

set_option maxHeartbeats 2000000 in
theorem cex_tools_generate :
    Tools.HatchPattern.generate_drawing_instructions rightCos rightSin
      (fun _ => 0) ⟨"P".toList, "demo".toList, [⟨0, (0, 1/2), (0, 1), []⟩]⟩
      2 (some 1) = [⟨0, 1/2, 2, 1/2⟩] := by
  norm_num [Tools.HatchPattern.generate_drawing_instructions,
    Tools.famSegments, Tools.lineStart, Tools.clip_line, Tools.clipLoop,
    rightCos, rightSin, qmod, List.range, List.range.loop, ceil_to_floor]

/-- C1 counterexample.  On the `.pat` content `*P, demo` / `0, 0, 0.5, 0, 1`,
with square size 2 and explicit scale 1, the TestTube variant draws the two
horizontal segments `y = 1/2` and `y = 3/2` while the Tools-panel variant
draws only `y = 1/2` (it reads the fourth field, `0`, as the perpendicular
displacement): the two sets of segments differ. -/
theorem variants_differ_counterexample :
    ((TT.get_pattern (TT.parseStream cexPatLines) "P".toList).map
        (fun p => TT.Pattern.generate_drawing_instructions rightCos rightSin
          p 2 none (some 1) 0)) =
      some [⟨0, 1/2, 2, 1/2⟩, ⟨0, 3/2, 2, 3/2⟩] ∧
    ((Tools.get_pattern (Tools.parse_string cexPatLines) "P".toList).map
        (fun p => Tools.HatchPattern.generate_drawing_instructions rightCos
          rightSin (fun _ => 0) p 2 (some 1))) =
      some [⟨0, 1/2, 2, 1/2⟩] ∧
    (⟨0, 3/2, 2, 3/2⟩ : Seg) ∈ [(⟨0, 1/2, 2, 1/2⟩ : Seg), ⟨0, 3/2, 2, 3/2⟩] ∧
    (⟨0, 3/2, 2, 3/2⟩ : Seg) ∉ [(⟨0, 1/2, 2, 1/2⟩ : Seg)] := by
  refine ⟨?_, ?_, ?_, ?_⟩
  · rw [cex_tt_parse]
    have hgp : TT.get_pattern
        [⟨"P".toList, "demo".toList, false, "Drafting",
          [⟨0, 0, 1/2, 0, 1, []⟩]⟩] "P".toList =
        some ⟨"P".toList, "demo".toList, false, "Drafting",
          [⟨0, 0, 1/2, 0, 1, []⟩]⟩ := by
      simp [TT.get_pattern]
    rw [hgp, Option.map_some', cex_tt_generate]
  · rw [cex_tools_parse]
    have hgp : Tools.get_pattern
        [⟨"P".toList, "demo".toList, [⟨0, (0, 1/2), (0, 1), []⟩]⟩] "P".toList =
        some ⟨"P".toList, "demo".toList, [⟨0, (0, 1/2), (0, 1), []⟩]⟩ := by
      simp [Tools.get_pattern]
    rw [hgp, Option.map_some', cex_tools_generate]
  · simp
  · simp only [List.mem_singleton]
    intro h
    have := congrArg Seg.y1 h
    norm_num at this

/-- C1 (amended).  The two variants interpret the fourth and fifth numeric
fields in swapped roles: when the 8-decimal rounding of the offset is exact,
the start point of line `i` in the Tools-panel variant, for a family with
fields `(f4, f5)`, is the origin plus `i` times the TestTube family offset
of the same family with fields `(f5, f4)`; in general the two variants do
not produce the same segments (see the counterexample). -/
theorem variants_offsets_swapped (cosD sinD : ℚ → ℚ)
    (a ox oy sox soy f4 f5 : ℚ) (ds : List ℚ) (i : ℤ)
    (h1 : round8 (f5 * cosD a + f4 * -(sinD a)) =
      f5 * cosD a + f4 * -(sinD a))
    (h2 : round8 (f5 * sinD a + f4 * cosD a) = f5 * sinD a + f4 * cosD a) :
    Tools.lineStart (cosD a) (sinD a) sox soy f4 f5 i =
      (sox + (i : ℚ) *
        (TT.Line.get_family_offset cosD sinD ⟨a, ox, oy, f5, f4, ds⟩).1,
       soy + (i : ℚ) *
        (TT.Line.get_family_offset cosD sinD ⟨a, ox, oy, f5, f4, ds⟩).2) := by
  unfold Tools.lineStart TT.Line.get_family_offset TT.Line.vec_u TT.Line.vec_v
  simp only
  rw [h1, h2]
  apply Prod.ext <;> simp only <;> ring

/-- C1 witness: the swapped-offset identity at angle 0 with fields
`(f4, f5) = (1, 2)`, line index 3. -/
theorem variants_offsets_swapped_witness :
    (round8 (2 * rightCos 0 + 1 * -(rightSin 0)) =
      2 * rightCos 0 + 1 * -(rightSin 0)) ∧
    (round8 (2 * rightSin 0 + 1 * rightCos 0) =
      2 * rightSin 0 + 1 * rightCos 0) ∧
    Tools.lineStart (rightCos 0) (rightSin 0) 5 7 1 2 3 =
      (5 + ((3 : ℤ) : ℚ) *
        (TT.Line.get_family_offset rightCos rightSin ⟨0, 0, 0, 2, 1, []⟩).1,
       7 + ((3 : ℤ) : ℚ) *
        (TT.Line.get_family_offset rightCos rightSin ⟨0, 0, 0, 2, 1, []⟩).2) := by
  have h1 : round8 (2 * rightCos 0 + 1 * -(rightSin 0)) =
      2 * rightCos 0 + 1 * -(rightSin 0) := by
    norm_num [rightCos, rightSin, qmod, round8, roundHalfEven]
  have h2 : round8 (2 * rightSin 0 + 1 * rightCos 0) =
      2 * rightSin 0 + 1 * rightCos 0 := by
    norm_num [rightCos, rightSin, qmod, round8, roundHalfEven]
  exact ⟨h1, h2,
    variants_offsets_swapped rightCos rightSin 0 0 0 5 7 1 2 [] 3 h1 h2⟩

/-! ## Char-level lemmas for the parser claims (C6, C7) -/

theorem dropWhile_append_singleton {p : Char → Bool} (c : Char)
    (hc : p c = false) :
    ∀ xs : List Char, List.dropWhile p (xs ++ [c]) =
      List.dropWhile p xs ++ [c] := by
  intro xs
  induction xs with
  | nil => simp [List.dropWhile, hc]
  | cons a rest ih =>
    by_cases ha : p a
    · simp [List.dropWhile, ha, ih]
    · simp [List.dropWhile, ha]

/-- A non-space head survives `charTrim`. -/
theorem charTrim_cons_of_not_space (c : Char) (l : List Char)
    (hc : pyIsSpace c = false) :
    ∃ t, charTrim (c :: l) = c :: t := by
  unfold charTrim
  rw [List.dropWhile_cons_of_neg (by simp [hc])]
  rw [show (c :: l).reverse = l.reverse ++ [c] by simp]
  rw [dropWhile_append_singleton c hc]
  exact ⟨(List.dropWhile pyIsSpace l.reverse).reverse, by simp⟩

theorem dropWhile_length_le (p : Char → Bool) :
    ∀ l : List Char, (List.dropWhile p l).length ≤ l.length := by
  intro l
  induction l with
  | nil => simp
  | cons a rest ih =>
    by_cases ha : p a
    · rw [List.dropWhile_cons_of_pos ha]
      simp only [List.length_cons]
      omega
    · rw [List.dropWhile_cons_of_neg (by simp [ha])]

/-- A trimmed nonempty string has a non-space head. -/
theorem head_not_space_of_trimmed (c : Char) (l : List Char)
    (htrim : charTrim (c :: l) = c :: l) : pyIsSpace c = false := by
  by_contra h
  rw [Bool.not_eq_false] at h
  have hlen : (charTrim (c :: l)).length ≤ l.length := by
    unfold charTrim
    rw [List.dropWhile_cons_of_pos (by simp [h])]
    have h1 := dropWhile_length_le pyIsSpace l
    have h2 := dropWhile_length_le pyIsSpace
      (List.dropWhile pyIsSpace l).reverse
    simp only [List.length_reverse] at h2 ⊢
    omega
  rw [htrim] at hlen
  simp at hlen

/-- The head of a successfully `float`-parsed string is a sign, a digit or
a decimal point. -/
theorem pyFloatQ_head (c : Char) (l : List Char) (q : ℚ)
    (hc : pyIsSpace c = false) (hp : pyFloatQ (c :: l) = some q) :
    c = '+' ∨ c = '-' ∨ c.isDigit = true ∨ c = '.' := by
  obtain ⟨t, ht⟩ := charTrim_cons_of_not_space c l hc
  unfold pyFloatQ at hp
  rw [ht] at hp
  split at hp
  · rename_i r heq
    exact Or.inl (List.cons_eq_cons.mp heq).1
  · rename_i r heq
    exact Or.inr (Or.inl (List.cons_eq_cons.mp heq).1)
  · by_cases h3 : c.isDigit = true
    · exact Or.inr (Or.inr (Or.inl h3))
    · right; right; right
      unfold parseUnsignedQ at hp
      rw [List.takeWhile_cons_of_neg (by simp [h3]),
        List.dropWhile_cons_of_neg (by simp [h3])] at hp
      dsimp only at hp
      split at hp
      · rename_i heq
        exact absurd heq (by simp)
      · rename_i fp heq
        exact (List.cons_eq_cons.mp heq).1
      · simp at hp

/-- A character that can start a parsed number (or a comma) is unchanged by
`Char.toUpper` and differs from the control characters `;` and `*`. -/
theorem float_head_facts (c : Char)
    (h : c = ',' ∨ c = '+' ∨ c = '-' ∨ c.isDigit = true ∨ c = '.') :
    (';' == c) = false ∧ ('*' == c) = false ∧ Char.toUpper c = c := by
  rcases h with h | h | h | h | h
  · subst h; refine ⟨by decide, by decide, by decide⟩
  · subst h; refine ⟨by decide, by decide, by decide⟩
  · subst h; refine ⟨by decide, by decide, by decide⟩
  · have hb : c ≤ '9' := by
      simp [Char.isDigit] at h
      exact h.2
    have hn : c.toNat ≤ 57 := by
      rw [Char.le_def, UInt32.le_def] at hb
      have := BitVec.le_def.mp hb
      simpa [Char.toNat, UInt32.toNat] using this
    refine ⟨?_, ?_, ?_⟩
    · simp only [beq_eq_false_iff_ne, ne_eq]
      intro he
      rw [← he] at h
      simp [Char.isDigit] at h
    · simp only [beq_eq_false_iff_ne, ne_eq]
      intro he
      rw [← he] at h
      simp [Char.isDigit] at h
    · unfold Char.toUpper
      rw [if_neg (by omega)]
  · subst h; refine ⟨by decide, by decide, by decide⟩

theorem splitCh_ne_nil (sep : Char) : ∀ l : List Char, splitCh sep l ≠ [] := by
  intro l
  induction l with
  | nil => simp [splitCh]
  | cons a rest ih =>
    unfold splitCh
    rcases h : splitCh sep rest with _ | ⟨r, rs⟩
    · exact absurd h ih
    · by_cases ha : a == sep <;> simp [ha]

theorem splitCh_cons_of_ne (sep c : Char) (cs : List Char)
    (hc : (c == sep) = false) :
    ∃ r rs, splitCh sep (c :: cs) = (c :: r) :: rs := by
  unfold splitCh
  rcases h : splitCh sep cs with _ | ⟨r, rs⟩
  · exact absurd h (splitCh_ne_nil sep cs)
  · exact ⟨r, rs, by simp [hc]⟩

theorem mapM_cons_some {α β : Type} (f : α → Option β) (x : α) (xs : List α)
    (ys : List β) (h : (x :: xs).mapM f = some ys) : ∃ y, f x = some y := by
  rw [List.mapM_cons] at h
  rcases hf : f x with _ | y
  · rw [hf] at h; simp at h
  · exact ⟨y, rfl⟩

/-- A data line that parses as numbers in the TestTube parser is not a
comment, a header, or a `;TYPE=` control line. -/
theorem ttParseNums_head_ok (d : List Char) (ns : List ℚ)
    (htrim : charTrim d = d) (hne : d ≠ [])
    (hp : TT.ttParseNums d = some ns) :
    beginsWith [';'] d = false ∧ beginsWith ['*'] d = false ∧
    beginsWith (";TYPE=".toList) (toUpperL d) = false := by
  obtain ⟨c, cs, rfl⟩ := List.exists_cons_of_ne_nil hne
  have hcsp : pyIsSpace c = false := head_not_space_of_trimmed c cs htrim
  have hhead : c = ',' ∨ c = '+' ∨ c = '-' ∨ c.isDigit = true ∨ c = '.' := by
    by_cases hcomma : (c == ',') = true
    · exact Or.inl (by simpa using hcomma)
    · obtain ⟨r, rs, hsp⟩ := splitCh_cons_of_ne ',' c cs (by simpa using hcomma)
      unfold TT.ttParseNums at hp
      rw [hsp] at hp
      obtain ⟨t, ht⟩ := charTrim_cons_of_not_space c r hcsp
      rw [List.map_cons, ht] at hp
      rw [List.filter_cons_of_pos (by simp)] at hp
      obtain ⟨y, hy⟩ := mapM_cons_some pyFloatQ (c :: t) _ ns hp
      exact Or.inr (pyFloatQ_head c t y hcsp hy)
  obtain ⟨hf1, hf2, hf3⟩ := float_head_facts c hhead
  refine ⟨?_, ?_, ?_⟩
  · simp [beginsWith, hf1]
  · simp [beginsWith, hf2]
  · show beginsWith (';' :: "TYPE=".toList) (Char.toUpper c :: toUpperL cs) = false
    simp [beginsWith, hf3, hf1]

/-- A data line that parses as numbers in the Tools-panel parser is not a
comment or a header. -/
theorem toolsNums_head_ok (d : List Char) (ns : List ℚ)
    (htrim : charTrim d = d) (hne : d ≠ [])
    (hp : (splitCh ',' d).mapM pyFloatQ = some ns) :
    beginsWith [';'] d = false ∧ beginsWith ['*'] d = false := by
  obtain ⟨c, cs, rfl⟩ := List.exists_cons_of_ne_nil hne
  have hcsp : pyIsSpace c = false := head_not_space_of_trimmed c cs htrim
  have hhead : c = ',' ∨ c = '+' ∨ c = '-' ∨ c.isDigit = true ∨ c = '.' := by
    by_cases hcomma : (c == ',') = true
    · exact Or.inl (by simpa using hcomma)
    · obtain ⟨r, rs, hsp⟩ := splitCh_cons_of_ne ',' c cs (by simpa using hcomma)
      rw [hsp] at hp
      obtain ⟨y, hy⟩ := mapM_cons_some pyFloatQ (c :: r) _ ns hp
      exact Or.inr (pyFloatQ_head c r y hcsp hy)
  obtain ⟨hf1, hf2, _⟩ := float_head_facts c hhead
  exact ⟨by simp [beginsWith, hf1], by simp [beginsWith, hf2]⟩

/-- `Char.toUpper` can only produce `;` from `;` itself. -/
theorem toUpper_eq_semicolon (c : Char) (h : Char.toUpper c = ';') :
    c = ';' := by
  unfold Char.toUpper at h
  by_cases hc : c.toNat ≥ 97 ∧ c.toNat ≤ 122
  · exfalso
    rw [if_pos hc] at h
    have hv : (c.toNat - 32).isValidChar := Or.inl (by omega)
    rw [Char.ofNat, dif_pos hv] at h
    have := congrArg (fun ch : Char => ch.val.toNat) h
    simp only [Char.ofNatAux, UInt32.toNat, BitVec.toNat_ofNatLt] at this
    have hsemi : (';' : Char).val.toBitVec.toNat = 59 := by decide
    omega
  · rw [if_neg hc] at h
    exact h

/-- A line whose head is not `;` has no upper-cased `;`-prefixed control
form. -/
theorem beginsWith_semi_upper_false (c : Char) (cs rest : List Char)
    (hc : (';' == c) = false) :
    beginsWith (';' :: rest) (toUpperL (c :: cs)) = false := by
  have hne : Char.toUpper c ≠ ';' := by
    intro h
    have := toUpper_eq_semicolon c h
    simp [this] at hc
  show ((';' == Char.toUpper c) && beginsWith rest (toUpperL cs)) = false
  have : (';' == Char.toUpper c) = false := by
    simp only [beq_eq_false_iff_ne, ne_eq]
    exact fun h => hne h.symm
  simp [this]

theorem scanMetric_insert (ln : List Char)
    (hu : beginsWith (";%UNITS=MM".toList) (toUpperL ln) = false)
    (hs : beginsWith ['*'] ln = false) :
    ∀ xs ys, TT.scanMetric (xs ++ ln :: ys) = TT.scanMetric (xs ++ ys) := by
  intro xs ys
  induction xs with
  | nil =>
    simp only [List.nil_append]
    rw [show TT.scanMetric (ln :: ys) =
      (if beginsWith (";%UNITS=MM".toList) (toUpperL ln) = true then true
       else if beginsWith ['*'] ln = true then false
       else TT.scanMetric ys) from rfl]
    rw [hu, hs]
    simp
  | cons x rest ih =>
    simp only [List.cons_append]
    rw [show TT.scanMetric (x :: (rest ++ ln :: ys)) =
      (if beginsWith (";%UNITS=MM".toList) (toUpperL x) = true then true
       else if beginsWith ['*'] x = true then false
       else TT.scanMetric (rest ++ ln :: ys)) from rfl]
    rw [show TT.scanMetric (x :: (rest ++ ys)) =
      (if beginsWith (";%UNITS=MM".toList) (toUpperL x) = true then true
       else if beginsWith ['*'] x = true then false
       else TT.scanMetric (rest ++ ys)) from rfl]
    rw [ih]

/-- TestTube `parseStep` leaves the state unchanged on a line that is not a
control line, a header, or a valid data line of at least five numbers. -/
theorem tt_parseStep_id (m : Bool) (st : TT.PState) (ln : List Char)
    (h1 : beginsWith ['*'] ln = false)
    (h2 : beginsWith [';'] ln = false)
    (h2b : beginsWith (";TYPE=".toList) (toUpperL ln) = false)
    (h3 : ∀ ns, TT.ttParseNums ln = some ns → ns.length < 5) :
    TT.parseStep m st ln = st := by
  unfold TT.parseStep
  rw [if_neg, if_neg (by simp [h2]), if_neg (by simp [h1])]
  · by_cases hp : st.pats ≠ []
    · rw [if_pos hp]
      rcases hns : TT.ttParseNums ln with _ | ns
      · rfl
      · simp only [if_pos (h3 ns hns)]
    · rw [if_neg hp]
  · rintro ⟨-, -, hbg⟩
    rw [h2b] at hbg
    exact absurd hbg (by simp)

/-- Tools-panel `parseStep` leaves the pattern list unchanged on a line
that is not a comment, a header, or a valid data line of at least five
numbers. -/
theorem tools_parseStep_id (pats : List Tools.HatchPattern) (ln : List Char)
    (h1 : beginsWith ['*'] (charTrim ln) = false)
    (h2 : beginsWith [';'] (charTrim ln) = false)
    (h3 : ∀ ns, (splitCh ',' (charTrim ln)).mapM pyFloatQ = some ns →
      ns.length < 5) :
    Tools.parseStep pats ln = pats := by
  unfold Tools.parseStep
  by_cases hnil : charTrim ln = []
  · rw [if_pos (Or.inl hnil)]
  · rw [if_neg (by simp [hnil, h2]), if_neg (by simp [h1])]
    by_cases hp : pats ≠ []
    · rw [if_pos hp]
      rcases hns : (splitCh ',' (charTrim ln)).mapM pyFloatQ with _ | ns
      · rfl
      · rcases ns with _ | ⟨a, ns⟩
        · rfl
        rcases ns with _ | ⟨b, ns⟩
        · rfl
        rcases ns with _ | ⟨c, ns⟩
        · rfl
        rcases ns with _ | ⟨d, ns⟩
        · rfl
        rcases ns with _ | ⟨e, ns⟩
        · rfl
        · have := h3 _ hns
          simp at this
          omega
    · rw [if_neg hp]

/-- C7.  Parsing is loosely validating and total over data lines: a line
that is neither a comment, a header, nor a comma-separated list of at least
five numbers contributes nothing, and parsing of the surrounding lines
proceeds exactly as if the line were absent — in both variants. -/
theorem bad_data_line_skipped (before after : List (List Char))
    (L : List Char)
    (h1 : beginsWith ['*'] (charTrim L) = false)
    (h2 : beginsWith [';'] (charTrim L) = false)
    (hTT : ∀ ns, TT.ttParseNums (charTrim L) = some ns → ns.length < 5)
    (hTools : ∀ ns, (splitCh ',' (charTrim L)).mapM pyFloatQ = some ns →
      ns.length < 5) :
    TT.parseStream (before ++ L :: after) = TT.parseStream (before ++ after) ∧
    Tools.parse_string (before ++ L :: after) =
      Tools.parse_string (before ++ after) := by
  constructor
  · by_cases hLnil : charTrim L = []
    · simp only [TT.parseStream]
      have hfil : ((before ++ L :: after).map charTrim).filter
          (fun l => l ≠ []) =
          ((before ++ after).map charTrim).filter (fun l => l ≠ []) := by
        simp [List.map_append, List.filter_append, hLnil]
      rw [hfil]
    · have hups : beginsWith (";%UNITS=MM".toList) (toUpperL (charTrim L)) =
          false := by
        obtain ⟨c, cs, hcons⟩ := List.exists_cons_of_ne_nil hLnil
        rw [hcons]
        rw [hcons] at h2
        have hc : (';' == c) = false := by
          simpa [beginsWith] using h2
        exact beginsWith_semi_upper_false c cs _ hc
      have htype : beginsWith (";TYPE=".toList) (toUpperL (charTrim L)) =
          false := by
        obtain ⟨c, cs, hcons⟩ := List.exists_cons_of_ne_nil hLnil
        rw [hcons]
        rw [hcons] at h2
        have hc : (';' == c) = false := by
          simpa [beginsWith] using h2
        exact beginsWith_semi_upper_false c cs _ hc
      simp only [TT.parseStream]
      have hfil : ((before ++ L :: after).map charTrim).filter
          (fun l => l ≠ []) =
          ((before.map charTrim).filter (fun l => l ≠ [])) ++ charTrim L ::
            ((after.map charTrim).filter (fun l => l ≠ [])) := by
        simp [List.map_append, List.filter_append, hLnil]
      have hfil2 : ((before ++ after).map charTrim).filter
          (fun l => l ≠ []) =
          ((before.map charTrim).filter (fun l => l ≠ [])) ++
            ((after.map charTrim).filter (fun l => l ≠ [])) := by
        simp [List.map_append, List.filter_append]
      rw [hfil, hfil2]
      rw [scanMetric_insert (charTrim L) hups h1 _ _]
      rw [List.foldl_append, List.foldl_append]
      rw [List.foldl_cons,
        tt_parseStep_id _ _ (charTrim L) h1 h2 htype hTT]
  · simp only [Tools.parse_string]
    rw [List.foldl_append, List.foldl_append, List.foldl_cons,
      tools_parseStep_id _ L h1 h2 hTools]

/-- C7 witness: the malformed line `1, 2, three` between two headers
contributes nothing to either parser. -/
theorem bad_data_line_skipped_witness :
    (beginsWith ['*'] (charTrim "1, 2, three".toList) = false) ∧
    (beginsWith [';'] (charTrim "1, 2, three".toList) = false) ∧
    TT.parseStream (["*A".toList] ++ "1, 2, three".toList :: ["*B".toList]) =
      TT.parseStream (["*A".toList] ++ ["*B".toList]) ∧
    Tools.parse_string
        (["*A".toList] ++ "1, 2, three".toList :: ["*B".toList]) =
      Tools.parse_string (["*A".toList] ++ ["*B".toList]) := by
  have h1 : beginsWith ['*'] (charTrim "1, 2, three".toList) = false := by
    simp [charTrim, pyIsSpace, beginsWith, List.dropWhile]
  have h2 : beginsWith [';'] (charTrim "1, 2, three".toList) = false := by
    simp [charTrim, pyIsSpace, beginsWith, List.dropWhile]
  have hTT : ∀ ns, TT.ttParseNums (charTrim "1, 2, three".toList) = some ns →
      ns.length < 5 := by
    intro ns hns
    simp [TT.ttParseNums, charTrim, pyIsSpace, splitCh, pyFloatQ,
      parseUnsignedQ, digitsToNat, List.mapM, List.mapM.loop, Option.bind,
      List.dropWhile, List.takeWhile, Char.isDigit] at hns
  have hTools : ∀ ns,
      (splitCh ',' (charTrim "1, 2, three".toList)).mapM pyFloatQ = some ns →
      ns.length < 5 := by
    intro ns hns
    simp [charTrim, pyIsSpace, splitCh, pyFloatQ,
      parseUnsignedQ, digitsToNat, List.mapM, List.mapM.loop, Option.bind,
      List.dropWhile, List.takeWhile, Char.isDigit] at hns
  exact ⟨h1, h2,
    (bad_data_line_skipped ["*A".toList] ["*B".toList] "1, 2, three".toList
      h1 h2 hTT hTools).1,
    (bad_data_line_skipped ["*A".toList] ["*B".toList] "1, 2, three".toList
      h1 h2 hTT hTools).2⟩

/-! ## Structure of parsed patterns (claim C6) -/

/-- The TestTube line family built from the parsed numbers of a data line
(an all-zero tail is stored as an empty dash list). -/
def ttLineOfNums (ns : List ℚ) : TT.Line :=
  ⟨ns.getD 0 0, ns.getD 1 0, ns.getD 2 0, ns.getD 3 0, ns.getD 4 0,
   if (ns.drop 5).all (fun x => x == 0) then [] else ns.drop 5⟩

/-- The Tools-panel line family built from the parsed numbers of a data
line. -/
def toolsFamilyOfNums (ns : List ℚ) : Tools.PatternLineFamily :=
  ⟨ns.getD 0 0, (ns.getD 1 0, ns.getD 2 0), (ns.getD 3 0, ns.getD 4 0),
   ns.drop 5⟩

/-- A well-formed TestTube data line and its parsed numbers. -/
def TTDataLine (d : List Char) (ns : List ℚ) : Prop :=
  charTrim d = d ∧ d ≠ [] ∧ TT.ttParseNums d = some ns ∧ 5 ≤ ns.length

/-- A well-formed Tools-panel data line and its parsed numbers. -/
def ToolsDataLine (d : List Char) (ns : List ℚ) : Prop :=
  charTrim d = d ∧ d ≠ [] ∧ (splitCh ',' d).mapM pyFloatQ = some ns ∧
    5 ≤ ns.length

theorem takeWhile_no_comma (n : List Char) (hn : (',' : Char) ∉ n) :
    ∀ dsc, (n ++ ',' :: dsc).takeWhile (fun c => c ≠ ',') = n := by
  induction n with
  | nil => intro dsc; simp [List.takeWhile]
  | cons a rest ih =>
    intro dsc
    have ha : a ≠ ',' := fun h => hn (by rw [h]; exact List.mem_cons_self _ _)
    simp only [List.cons_append]
    rw [List.takeWhile_cons_of_pos (by simp [ha])]
    rw [ih (fun h => hn (List.mem_cons_of_mem _ h)) dsc]

theorem dropWhile_no_comma (n : List Char) (hn : (',' : Char) ∉ n) :
    ∀ dsc, (n ++ ',' :: dsc).dropWhile (fun c => c ≠ ',') = ',' :: dsc := by
  induction n with
  | nil => intro dsc; simp [List.dropWhile]
  | cons a rest ih =>
    intro dsc
    have ha : a ≠ ',' := fun h => hn (by rw [h]; exact List.mem_cons_self _ _)
    simp only [List.cons_append]
    rw [List.dropWhile_cons_of_pos (by simp [ha])]
    exact ih (fun h => hn (List.mem_cons_of_mem _ h)) dsc

/-- Header splitting: `*name, description` yields the stripped name (before
the first comma) and the stripped description (after it). -/
theorem headerName_desc_split (n dsc : List Char) (hn : (',' : Char) ∉ n) :
    headerName (n ++ ',' :: dsc) = charTrim n ∧
    headerDesc (n ++ ',' :: dsc) = charTrim dsc := by
  constructor
  · unfold headerName
    rw [takeWhile_no_comma n hn dsc]
  · unfold headerDesc
    rw [if_pos (by simp)]
    rw [dropWhile_no_comma n hn dsc]
    simp

/-- A header line starts with `*`. -/
theorem beginsWith_star_cons (hdr : List Char)
    (hb : beginsWith ['*'] hdr = true) : ∃ rest, hdr = '*' :: rest := by
  cases hdr with
  | nil => simp [beginsWith] at hb
  | cons c cs =>
    simp only [beginsWith, Bool.and_eq_true, beq_iff_eq] at hb
    exact ⟨cs, by rw [hb.1]⟩

/-- The TestTube step on a header line appends a fresh pattern. -/
theorem tt_parseStep_header (m : Bool) (st : TT.PState) (hdr : List Char)
    (hb : beginsWith ['*'] hdr = true) :
    TT.parseStep m st hdr =
      ⟨st.pats ++ [⟨headerName (hdr.drop 1), headerDesc (hdr.drop 1), m,
        st.curType.getD "Drafting", []⟩], none⟩ := by
  obtain ⟨rest, rfl⟩ := beginsWith_star_cons hdr hb
  have htype : beginsWith (";TYPE=".toList) (toUpperL ('*' :: rest)) =
      false := by
    show beginsWith (';' :: "TYPE=".toList)
      (Char.toUpper '*' :: toUpperL rest) = false
    have : (';' == Char.toUpper '*') = false := by decide
    show ((';' == Char.toUpper '*') && _) = false
    rw [this]
    simp
  have hsemi : beginsWith [';'] ('*' :: rest) = false := by
    show ((';' == '*') && beginsWith [] rest) = false
    rw [show ((';' == '*') = false) from by decide]
    simp
  unfold TT.parseStep
  rw [if_neg, if_neg (by simp [hsemi]), if_pos (by simp [hb])]
  rintro ⟨-, -, hbg⟩
  rw [htype] at hbg
  exact absurd hbg (by simp)

/-- The TestTube step on a well-formed data line appends its line family to
the last pattern. -/
theorem tt_parseStep_data (m : Bool) (st : TT.PState) (d : List Char)
    (ns : List ℚ) (hps : st.pats ≠ []) (h : TTDataLine d ns) :
    TT.parseStep m st d =
      { st with pats := updateLast (fun p =>
          { p with lines := p.lines ++ [ttLineOfNums ns] }) st.pats } := by
  obtain ⟨htrim, hne, hp, hlen⟩ := h
  obtain ⟨hc1, hc2, hc3⟩ := ttParseNums_head_ok d ns htrim hne hp
  unfold TT.parseStep
  rw [if_neg, if_neg (by simp [hc1]), if_neg (by simp [hc2]), if_pos hps, hp]
  · dsimp only
    rw [if_neg (by omega)]
    rfl
  · rintro ⟨-, -, hbg⟩
    rw [hc3] at hbg
    exact absurd hbg (by simp)

theorem updateLast_singleton {α : Type} (f : α → α) (a : α) :
    updateLast f [a] = [f a] := rfl

/-- Folding the TestTube step over well-formed data lines appends the
corresponding families, in order, to the current (single) pattern. -/
theorem tt_fold_data (datas : List (List Char)) (nums : List (List ℚ))
    (hrel : List.Forall₂ TTDataLine datas nums) :
    ∀ P : TT.Pattern,
      datas.foldl (TT.parseStep false) ⟨[P], none⟩ =
        ⟨[{ P with lines := P.lines ++ nums.map ttLineOfNums }], none⟩ := by
  induction hrel with
  | nil => intro P; simp
  | @cons d ns datas' nums' hdn hrest ih =>
    intro P
    rw [List.foldl_cons,
      tt_parseStep_data false ⟨[P], none⟩ d ns (by simp) hdn]
    dsimp only
    rw [updateLast_singleton]
    rw [ih { P with lines := P.lines ++ [ttLineOfNums ns] }]
    simp

/-- The Tools-panel step on a trimmed header line appends a fresh pattern. -/
theorem tools_parseStep_header (pats : List Tools.HatchPattern)
    (hdr : List Char) (htrim : charTrim hdr = hdr)
    (hb : beginsWith ['*'] hdr = true) :
    Tools.parseStep pats hdr =
      pats ++ [⟨headerName (hdr.drop 1), headerDesc (hdr.drop 1), []⟩] := by
  obtain ⟨rest, hrest⟩ := beginsWith_star_cons hdr hb
  have hsemi : beginsWith [';'] hdr = false := by
    rw [hrest]
    show ((';' == '*') && beginsWith [] rest) = false
    rw [show ((';' == '*') = false) from by decide]
    simp
  have hne : hdr ≠ [] := by rw [hrest]; simp
  unfold Tools.parseStep
  rw [htrim, if_neg (by simp [hne, hsemi]), if_pos (by simp [hb])]

/-- The Tools-panel step on a well-formed data line appends its family to
the last pattern. -/
theorem tools_parseStep_data (pats : List Tools.HatchPattern)
    (d : List Char) (ns : List ℚ) (hps : pats ≠ [])
    (h : ToolsDataLine d ns) :
    Tools.parseStep pats d = updateLast (fun p =>
      { p with line_families :=
        p.line_families ++ [toolsFamilyOfNums ns] }) pats := by
  obtain ⟨htrim, hne, hp, hlen⟩ := h
  obtain ⟨hc1, hc2⟩ := toolsNums_head_ok d ns htrim hne hp
  unfold Tools.parseStep
  rw [htrim, if_neg (by simp [hne, hc1]), if_neg (by simp [hc2]),
    if_pos hps, hp]
  rcases ns with _ | ⟨a, ns⟩
  · simp at hlen
  rcases ns with _ | ⟨b, ns⟩
  · simp at hlen
  rcases ns with _ | ⟨c, ns⟩
  · simp at hlen
  rcases ns with _ | ⟨dd, ns⟩
  · simp at hlen
  rcases ns with _ | ⟨e, ns⟩
  · simp at hlen
  rfl

/-- Folding the Tools-panel step over well-formed data lines appends the
corresponding families, in order, to the current (single) pattern. -/
theorem tools_fold_data (datas : List (List Char)) (nums : List (List ℚ))
    (hrel : List.Forall₂ ToolsDataLine datas nums) :
    ∀ P : Tools.HatchPattern,
      datas.foldl Tools.parseStep [P] =
        [{ P with line_families :=
          P.line_families ++ nums.map toolsFamilyOfNums }] := by
  induction hrel with
  | nil => intro P; simp
  | @cons d ns datas' nums' hdn hrest ih =>
    intro P
    rw [List.foldl_cons, tools_parseStep_data [P] d ns (by simp) hdn]
    rw [updateLast_singleton]
    rw [ih { P with line_families := P.line_families ++ [toolsFamilyOfNums ns] }]
    simp

theorem ttDataLine_left_facts (datas : List (List Char))
    (nums : List (List ℚ)) (hrel : List.Forall₂ TTDataLine datas nums) :
    ∀ d ∈ datas, charTrim d = d ∧ d ≠ [] := by
  induction hrel with
  | nil => intro d hd; simp at hd
  | @cons d ns datas' nums' hdn hrest ih =>
    intro x hx
    rcases List.mem_cons.mp hx with hx | hx
    · subst hx; exact ⟨hdn.1, hdn.2.1⟩
    · exact ih x hx

theorem filter_trimmed_id (ls : List (List Char))
    (h : ∀ d ∈ ls, charTrim d = d ∧ d ≠ []) :
    (ls.map charTrim).filter (fun l => l ≠ []) = ls := by
  induction ls with
  | nil => simp
  | cons a rest ih =>
    have ha := h a (List.mem_cons_self a rest)
    have hrest := ih (fun x hx => h x (List.mem_cons_of_mem _ hx))
    simp only [List.map_cons, ha.1]
    simp [List.filter_cons, ha.2]
    simpa using hrest

theorem scanMetric_header_first (hdr : List Char) (rest : List (List Char))
    (hb : beginsWith ['*'] hdr = true) :
    TT.scanMetric (hdr :: rest) = false := by
  obtain ⟨t, rfl⟩ := beginsWith_star_cons hdr hb
  rw [show TT.scanMetric (('*' :: t) :: rest) =
    (if beginsWith (";%UNITS=MM".toList) (toUpperL ('*' :: t)) = true then true
     else if beginsWith ['*'] ('*' :: t) = true then false
     else TT.scanMetric rest) from rfl]
  have hu : beginsWith (";%UNITS=MM".toList) (toUpperL ('*' :: t)) = false := by
    show beginsWith (';' :: "%UNITS=MM".toList)
      (Char.toUpper '*' :: toUpperL t) = false
    show ((';' == Char.toUpper '*') && _) = false
    rw [show ((';' == Char.toUpper '*') = false) from by decide]
    simp
  rw [hu, hb]
  simp

/-- C6 (amended).  Parsing a header line `*name, description` followed by
well-formed data lines produces exactly one pattern holding the stripped
name and description, whose line families appear in data-line order, each
storing the first field as the angle, the second and third as the origin,
the fourth and fifth as the two displacement components and the remaining
fields as the dash array — except that the TestTube variant stores an
all-zero remainder as an empty dash array. -/
theorem parse_structure :
    (∀ n dsc : List Char, (',' : Char) ∉ n →
      headerName (n ++ ',' :: dsc) = charTrim n ∧
      headerDesc (n ++ ',' :: dsc) = charTrim dsc) ∧
    (∀ (hdr : List Char) (datas : List (List Char)) (nums : List (List ℚ)),
      charTrim hdr = hdr → beginsWith ['*'] hdr = true →
      List.Forall₂ TTDataLine datas nums →
      TT.parseStream (hdr :: datas) =
        [⟨headerName (hdr.drop 1), headerDesc (hdr.drop 1), false, "Drafting",
          nums.map ttLineOfNums⟩]) ∧
    (∀ (hdr : List Char) (datas : List (List Char)) (nums : List (List ℚ)),
      charTrim hdr = hdr → beginsWith ['*'] hdr = true →
      List.Forall₂ ToolsDataLine datas nums →
      Tools.parse_string (hdr :: datas) =
        [⟨headerName (hdr.drop 1), headerDesc (hdr.drop 1),
          nums.map toolsFamilyOfNums⟩]) := by
  refine ⟨headerName_desc_split, ?_, ?_⟩
  · intro hdr datas nums htrim hb hrel
    have hne : hdr ≠ [] := by
      obtain ⟨r, hr⟩ := beginsWith_star_cons hdr hb
      rw [hr]; simp
    simp only [TT.parseStream]
    have hfil : ((hdr :: datas).map charTrim).filter (fun l => l ≠ []) =
        hdr :: datas := by
      simp only [List.map_cons, htrim]
      rw [List.filter_cons_of_pos (by simp [hne])]
      rw [filter_trimmed_id datas (ttDataLine_left_facts datas nums hrel)]
    rw [hfil, scanMetric_header_first hdr datas hb]
    rw [List.foldl_cons, tt_parseStep_header false ⟨[], none⟩ hdr hb]
    simp only [List.nil_append, Option.getD_none]
    rw [tt_fold_data datas nums hrel
      ⟨headerName (hdr.drop 1), headerDesc (hdr.drop 1), false, "Drafting", []⟩]
    simp
  · intro hdr datas nums htrim hb hrel
    simp only [Tools.parse_string]
    rw [List.foldl_cons, tools_parseStep_header [] hdr htrim hb]
    simp only [List.nil_append]
    rw [tools_fold_data datas nums hrel
      ⟨headerName (hdr.drop 1), headerDesc (hdr.drop 1), []⟩]
    simp

theorem parse_structure_witness :
    TT.parseStream ["*B,c".toList, "0,0,0,0,1".toList] =
      [⟨['B'], ['c'], false, "Drafting", [⟨0, 0, 0, 0, 1, []⟩]⟩] ∧
    Tools.parse_string ["*B,c".toList, "0,0,0,0,1".toList] =
      [⟨['B'], ['c'], [⟨0, (0, 0), (0, 1), []⟩]⟩] := by
  have htrim : charTrim ("*B,c".toList) = "*B,c".toList := by
    simp [charTrim, pyIsSpace, List.dropWhile]
  have hb : beginsWith ['*'] ("*B,c".toList) = true := by
    simp [beginsWith]
  have hdt : charTrim ("0,0,0,0,1".toList) = "0,0,0,0,1".toList := by
    simp [charTrim, pyIsSpace, List.dropWhile]
  have hnumsTT : TT.ttParseNums ("0,0,0,0,1".toList) =
      some [0, 0, 0, 0, 1] := by
    simp [TT.ttParseNums, charTrim, pyIsSpace, splitCh, pyFloatQ,
      parseUnsignedQ, digitsToNat, List.mapM, List.mapM.loop, Option.bind,
      List.dropWhile, List.takeWhile, Char.isDigit]
  have hnumsTools : (splitCh ',' ("0,0,0,0,1".toList)).mapM pyFloatQ =
      some [0, 0, 0, 0, 1] := by
    simp [charTrim, pyIsSpace, splitCh, pyFloatQ,
      parseUnsignedQ, digitsToNat, List.mapM, List.mapM.loop, Option.bind,
      List.dropWhile, List.takeWhile, Char.isDigit]
  have hdlTT : TTDataLine ("0,0,0,0,1".toList) [0, 0, 0, 0, 1] :=
    ⟨hdt, by simp, hnumsTT, by simp⟩
  have hdlTools : ToolsDataLine ("0,0,0,0,1".toList) [0, 0, 0, 0, 1] :=
    ⟨hdt, by simp, hnumsTools, by simp⟩
  have hTT := parse_structure.2.1 ("*B,c".toList) ["0,0,0,0,1".toList]
    [[0, 0, 0, 0, 1]] htrim hb
    (List.Forall₂.cons hdlTT List.Forall₂.nil)
  have hTools := parse_structure.2.2 ("*B,c".toList) ["0,0,0,0,1".toList]
    [[0, 0, 0, 0, 1]] htrim hb
    (List.Forall₂.cons hdlTools List.Forall₂.nil)
  rw [hTT, hTools]
  constructor
  · simp [headerName, headerDesc, charTrim, pyIsSpace, splitCh,
      List.takeWhile, List.dropWhile, ttLineOfNums, List.getD]
  · simp [headerName, headerDesc, charTrim, pyIsSpace, splitCh,
      List.takeWhile, List.dropWhile, toolsFamilyOfNums, List.getD]

/-- C6 counterexample to the stated claim: on a data line whose remaining
fields beyond the fifth are all zero, the TestTube parser stores an empty
dash array rather than those remaining fields. -/
theorem parse_structure_counterexample :
    TT.parseStream ["*B,c".toList, "0,0,0,0,1,0,0".toList] =
      [⟨['B'], ['c'], false, "Drafting", [⟨0, 0, 0, 0, 1, []⟩]⟩] ∧
    (TT.ttParseNums ("0,0,0,0,1,0,0".toList)).map (fun ns => ns.drop 5) =
      some [0, 0] ∧
    ([] : List ℚ) ≠ [0, 0] := by
  refine ⟨?_, ?_, by simp⟩
  · simp [TT.parseStream, TT.parseStep, TT.scanMetric,
      TT.ttParseNums, beginsWith, toUpperL, headerName, headerDesc, charTrim,
      pyIsSpace, splitCh, pyFloatQ, parseUnsignedQ, digitsToNat, updateLast,
      List.mapM, List.mapM.loop, Option.bind, List.getD,
      List.dropWhile, List.takeWhile, Char.isDigit]
  · simp [TT.ttParseNums, charTrim, pyIsSpace, splitCh, pyFloatQ,
      parseUnsignedQ, digitsToNat, List.mapM, List.mapM.loop, Option.bind,
      List.dropWhile, List.takeWhile, Char.isDigit]

/-! ## Roofing-profile normal and bump maps (claim C5)

`roofpattern-script.py` builds per-pixel colour functions over floats; the
embedding works over `ℝ` (so `noncomputable` definitions), with `Real.sin`,
`Real.cos`, `Real.sqrt` and `Real.pi` for the `math` module, `rmod` for the
float `%`, and `pyTrunc` for Python `int()` (truncation toward zero,
`⌈x⌉ = -⌊-x⌋`).  Pixel `index` of `total_pixels` sits at real-world
position `total_width * (index / total_pixels)`.  The five lines shared
verbatim by the three `get_vector_color` closures (magnitude, nx, ny, nz
and the three `int((· * 0.5 + 0.5) * 255)` encodings) are factored into
`normalColor`.  `unit3` and `encodeVec` formalise the specification's
"normalized vector" and its RGB encoding, for comparison with the code. -/

namespace Roof

/-- Python float `%` on reals (used with a positive modulus). -/
noncomputable def rmod (x s : ℝ) : ℝ := x - s * ⌊x / s⌋

/-- Python `int()` on a float: truncation toward zero. -/
noncomputable def pyTrunc (x : ℝ) : ℤ := if 0 ≤ x then ⌊x⌋ else -⌊-x⌋

/-- The shared tail of the three `get_vector_color` closures: normalize
`(-dz_dx, 0, 1)` and encode each component as `int((c*0.5 + 0.5) * 255)`. -/
noncomputable def normalColor (dz : ℝ) : ℤ × ℤ × ℤ :=
  let magnitude := Real.sqrt (dz ^ 2 + 1)
  (pyTrunc ((-dz / magnitude * 0.5 + 0.5) * 255),
   pyTrunc ((0 * 0.5 + 0.5) * 255),
   pyTrunc ((1 / magnitude * 0.5 + 0.5) * 255))

/-- Real-world position of pixel `i` of `total`:
`total_width * (float(index) / total_pixels)` with
`total_width = spacing * num_repeats`. -/
noncomputable def xPos (s reps : ℝ) (i total : ℕ) : ℝ :=
  s * reps * ((i : ℝ) / (total : ℝ))

/-- `dz_dx` of `get_corrugated_vector_func` at pixel `i`
(`x = num_repeats * (index / total_pixels)` is measured in periods). -/
noncomputable def corr_dz (s h reps : ℝ) (i total : ℕ) : ℝ :=
  2 * Real.pi * (h / 2) / s *
    Real.cos (2 * Real.pi * (reps * ((i : ℝ) / (total : ℝ))))

/-- `get_corrugated_vector_func`'s colour at pixel `i`. -/
noncomputable def corr_vector (s h reps : ℝ) (i total : ℕ) : ℤ × ℤ × ℤ :=
  normalColor (corr_dz s h reps i total)

/-- `y_height` of `get_corrugated_height_func` at pixel `i`. -/
noncomputable def corr_height (h reps : ℝ) (i total : ℕ) : ℝ :=
  (h / 2) * Real.sin (2 * Real.pi * (reps * ((i : ℝ) / (total : ℝ)))) + h / 2

/-- `get_corrugated_height_func`'s grayscale value at pixel `i`. -/
noncomputable def corr_gray (h reps : ℝ) (i total : ℕ) : ℤ :=
  pyTrunc (corr_height h reps i total / h * 255)

/-- The corrugated height profile as a function of real-world position. -/
noncomputable def corr_profile (s h : ℝ) (X : ℝ) : ℝ :=
  (h / 2) * Real.sin (2 * Real.pi * (X / s)) + h / 2

/-- `p1` of the trapezoidal profile (`rib_width`). -/
noncomputable def trap_p1 (rib : ℝ) : ℝ := rib

/-- `p2 = p1 + slope_width` with `slope_width = (spacing-rib-top)/2`. -/
noncomputable def trap_p2 (rib top s : ℝ) : ℝ := rib + (s - rib - top) / 2

/-- `p3 = p2 + top_width`. -/
noncomputable def trap_p3 (rib top s : ℝ) : ℝ :=
  rib + (s - rib - top) / 2 + top

/-- `slope = height / slope_width if slope_width > 0 else 0`. -/
noncomputable def trap_slope (rib top s h : ℝ) : ℝ :=
  if (s - rib - top) / 2 > 0 then h / ((s - rib - top) / 2) else 0

/-- `y_height` of `get_trapezoidal_height_func` as a function of `x_mod`. -/
noncomputable def trap_y (rib top s h : ℝ) (x : ℝ) : ℝ :=
  if trap_p1 rib ≤ x ∧ x < trap_p2 rib top s then
    trap_slope rib top s h * (x - trap_p1 rib)
  else if trap_p2 rib top s ≤ x ∧ x < trap_p3 rib top s then h
  else if trap_p3 rib top s ≤ x then
    h - trap_slope rib top s h * (x - trap_p3 rib top s)
  else 0

/-- `dz_dx` of `get_trapezoidal_vector_func` as a function of `x_mod`. -/
noncomputable def trap_dzv (rib top s h : ℝ) (x : ℝ) : ℝ :=
  if trap_p1 rib ≤ x ∧ x < trap_p2 rib top s then trap_slope rib top s h
  else if trap_p3 rib top s ≤ x then -trap_slope rib top s h
  else 0

/-- `get_trapezoidal_vector_func`'s colour at pixel `i`. -/
noncomputable def trap_vector (rib top s h reps : ℝ) (i total : ℕ) :
    ℤ × ℤ × ℤ :=
  normalColor (trap_dzv rib top s h (rmod (xPos s reps i total) s))

/-- `get_trapezoidal_height_func`'s `y_height` at pixel `i`. -/
noncomputable def trap_height (rib top s h reps : ℝ) (i total : ℕ) : ℝ :=
  trap_y rib top s h (rmod (xPos s reps i total) s)

/-- `get_trapezoidal_height_func`'s grayscale value at pixel `i`. -/
noncomputable def trap_gray (rib top s h reps : ℝ) (i total : ℕ) : ℤ :=
  pyTrunc (trap_height rib top s h reps i total / h * 255)

/-- The trapezoidal height profile as a function of real-world position. -/
noncomputable def trap_profile (rib top s h : ℝ) (X : ℝ) : ℝ :=
  trap_y rib top s h (rmod X s)

/-- `p1 = (spacing - thickness) / 2` of the ribbed profile. -/
noncomputable def rib_p1 (s t : ℝ) : ℝ := (s - t) / 2

/-- `dz_dx` of `get_ribbed_vector_func` as a function of `x_mod` (the
semi-elliptical rib of semi-axes `a = thickness/2` and `h = height`). -/
noncomputable def rib_dzv (s t h : ℝ) (x : ℝ) : ℝ :=
  let a := t / 2
  let a_sq := if a > 0 then a ^ 2 else 0
  let h_sq := h ^ 2
  if (rib_p1 s t ≤ x ∧ x < rib_p1 s t + t) ∧ a_sq > 0 then
    let x_rel := x - (rib_p1 s t + a)
    let z_term_sq := 1 - x_rel ^ 2 / a_sq
    if z_term_sq > 0.00001 then
      let z := h * Real.sqrt z_term_sq
      if z > 0.0001 then -(h_sq * x_rel) / (a_sq * z) else 0
    else 0
  else 0

/-- `get_ribbed_vector_func`'s colour at pixel `i`. -/
noncomputable def rib_vector (s t h reps : ℝ) (i total : ℕ) : ℤ × ℤ × ℤ :=
  normalColor (rib_dzv s t h (rmod (xPos s reps i total) s))

/-- `gray` of `get_ribbed_height_func` as a function of `x_mod` (a flat
rectangular profile: 255 on the rib, 0 elsewhere). -/
noncomputable def rib_height_y (s t : ℝ) (x : ℝ) : ℝ :=
  if rib_p1 s t ≤ x ∧ x < rib_p1 s t + t then 255 else 0

/-- `get_ribbed_height_func`'s grayscale value at pixel `i`. -/
noncomputable def rib_gray (s t reps : ℝ) (i total : ℕ) : ℤ :=
  if rib_p1 s t ≤ rmod (xPos s reps i total) s ∧
      rmod (xPos s reps i total) s < rib_p1 s t + t then 255 else 0

/-- The ribbed bump-map height profile as a function of real-world
position. -/
noncomputable def rib_profile (s t : ℝ) (X : ℝ) : ℝ :=
  rib_height_y s t (rmod X s)

end Roof

/-- Euclidean norm of a 3-vector (specification side). -/
noncomputable def norm3 (v : ℝ × ℝ × ℝ) : ℝ :=
  Real.sqrt (v.1 ^ 2 + v.2.1 ^ 2 + v.2.2 ^ 2)

/-- Normalization of a 3-vector (specification side). -/
noncomputable def unit3 (v : ℝ × ℝ × ℝ) : ℝ × ℝ × ℝ :=
  (v.1 / norm3 v, v.2.1 / norm3 v, v.2.2 / norm3 v)

/-- RGB encoding `int((c*0.5 + 0.5) * 255)` of a 3-vector. -/
noncomputable def encodeVec (v : ℝ × ℝ × ℝ) : ℤ × ℤ × ℤ :=
  (Roof.pyTrunc ((v.1 * 0.5 + 0.5) * 255),
   Roof.pyTrunc ((v.2.1 * 0.5 + 0.5) * 255),
   Roof.pyTrunc ((v.2.2 * 0.5 + 0.5) * 255))

theorem normalColor_eq (dz : ℝ) :
    Roof.normalColor dz = encodeVec (unit3 (-dz, 0, 1)) := by
  have hn : norm3 (-dz, 0, 1) = Real.sqrt (dz ^ 2 + 1) := by
    simp only [norm3]
    congr 1
    ring
  simp only [Roof.normalColor, encodeVec, unit3, hn, zero_div]

theorem hasDerivAt_rmod_comp (f g : ℝ → ℝ) (s d X a b : ℝ) (k : ℤ)
    (hs : 0 < s) (ha : 0 ≤ a) (hb : b ≤ s)
    (h1 : a < X - s * k) (h2 : X - s * k < b)
    (hfg : ∀ y, a < y → y < b → f y = g y)
    (hg : HasDerivAt g d (X - s * k)) :
    HasDerivAt (fun Y => f (Roof.rmod Y s)) d X := by
  have hmem : X ∈ Set.Ioo (s * k + a) (s * k + b) := ⟨by linarith, by linarith⟩
  have hfloor : ∀ Y ∈ Set.Ioo (s * (k : ℝ) + a) (s * k + b), ⌊Y / s⌋ = k := by
    intro Y hY
    rw [Int.floor_eq_iff]
    constructor
    · rw [le_div_iff₀ hs]
      have hc : (k : ℝ) * s = s * k := mul_comm _ _
      rw [hc]
      linarith [hY.1]
    · rw [div_lt_iff₀ hs]
      have hc : ((k : ℝ) + 1) * s = s * k + s := by ring
      rw [hc]
      linarith [hY.2]
  have hev : (fun Y => f (Roof.rmod Y s)) =ᶠ[nhds X]
      fun Y => g (Y - s * k) := by
    refine Filter.eventually_of_mem (isOpen_Ioo.mem_nhds hmem)
      (fun Y hY => ?_)
    have hr : Roof.rmod Y s = Y - s * k := by
      simp [Roof.rmod, hfloor Y hY]
    show f (Roof.rmod Y s) = g (Y - s * k)
    rw [hr]
    exact hfg _ (by linarith [hY.1]) (by linarith [hY.2])
  have hinner : HasDerivAt (fun Y : ℝ => Y - s * k) 1 X := by
    simpa using (hasDerivAt_id X).sub_const (s * (k : ℝ))
  have hbase : HasDerivAt (fun Y => g (Y - s * k)) d X := by
    have hcomp := HasDerivAt.comp X hg hinner
    simpa using hcomp
  exact (Filter.EventuallyEq.hasDerivAt_iff hev).mpr hbase

theorem rmod_nonneg (X s : ℝ) (hs : 0 < s) : 0 ≤ Roof.rmod X s := by
  have h := Int.floor_le (X / s)
  have h2 : s * (⌊X / s⌋ : ℝ) ≤ s * (X / s) :=
    mul_le_mul_of_nonneg_left h hs.le
  have h3 : s * (X / s) = X := by field_simp
  simp only [Roof.rmod]
  linarith

theorem rmod_lt_right (X s : ℝ) (hs : 0 < s) : Roof.rmod X s < s := by
  have h := Int.lt_floor_add_one (X / s)
  have h2 : s * (X / s) < s * ((⌊X / s⌋ : ℝ) + 1) :=
    mul_lt_mul_of_pos_left h hs
  have h3 : s * (X / s) = X := by field_simp
  simp only [Roof.rmod]
  nlinarith

theorem trap_deriv (rib top s h X : ℝ)
    (hs : 0 < s) (hrib : 0 ≤ rib) (htop : 0 ≤ top)
    (hsw : 0 < (s - rib - top) / 2)
    (hx0 : 0 < Roof.rmod X s)
    (hx1 : Roof.rmod X s ≠ Roof.trap_p1 rib)
    (hx2 : Roof.rmod X s ≠ Roof.trap_p2 rib top s)
    (hx3 : Roof.rmod X s ≠ Roof.trap_p3 rib top s) :
    HasDerivAt (Roof.trap_profile rib top s h)
      (Roof.trap_dzv rib top s h (Roof.rmod X s)) X := by
  have hxe : Roof.rmod X s = X - s * (⌊X / s⌋ : ℝ) := rfl
  have hxlt : Roof.rmod X s < s := rmod_lt_right X s hs
  have hp1 : Roof.trap_p1 rib = rib := rfl
  have hp2 : Roof.trap_p2 rib top s = rib + (s - rib - top) / 2 := rfl
  have hp3 : Roof.trap_p3 rib top s = rib + (s - rib - top) / 2 + top := rfl
  rcases lt_or_gt_of_ne hx1 with hc1 | hc1
  · have hdz : Roof.trap_dzv rib top s h (Roof.rmod X s) = 0 := by
      simp only [Roof.trap_dzv]
      rw [if_neg (fun hc => absurd hc.1 (not_le.mpr hc1)),
        if_neg (not_le.mpr (by rw [hp3]; rw [hp1] at hc1; linarith))]
    rw [hdz]
    refine hasDerivAt_rmod_comp (Roof.trap_y rib top s h) (fun _ => 0) s 0 X
      0 rib ⌊X / s⌋ hs le_rfl (by linarith) ?_ ?_ ?_ (hasDerivAt_const _ 0)
    · rw [← hxe]; exact hx0
    · rw [← hxe]; rw [hp1] at hc1; exact hc1
    · intro y hy1 hy2
      simp only [Roof.trap_y]
      rw [if_neg (fun hc => absurd hc.1 (not_le.mpr (by rw [hp1]; exact hy2))),
        if_neg (fun hc => absurd hc.1 (not_le.mpr (by rw [hp2]; linarith))),
        if_neg (not_le.mpr (by rw [hp3]; linarith))]
  · rcases lt_or_gt_of_ne hx2 with hc2 | hc2
    · have hdz : Roof.trap_dzv rib top s h (Roof.rmod X s) =
          Roof.trap_slope rib top s h := by
        simp only [Roof.trap_dzv]
        rw [if_pos ⟨le_of_lt hc1, hc2⟩]
      rw [hdz]
      refine hasDerivAt_rmod_comp (Roof.trap_y rib top s h)
        (fun y => Roof.trap_slope rib top s h * (y - Roof.trap_p1 rib)) s
        (Roof.trap_slope rib top s h) X (Roof.trap_p1 rib)
        (Roof.trap_p2 rib top s) ⌊X / s⌋ hs
        (by rw [hp1]; exact hrib) (by rw [hp2]; linarith) ?_ ?_ ?_ ?_
      · rw [← hxe]; exact hc1
      · rw [← hxe]; exact hc2
      · intro y hy1 hy2
        simp only [Roof.trap_y]
        rw [if_pos ⟨le_of_lt hy1, hy2⟩]
      · have hid := ((hasDerivAt_id (Roof.rmod X s)).sub_const
          (Roof.trap_p1 rib)).const_mul (Roof.trap_slope rib top s h)
        rw [← hxe]
        simpa using hid
    · rcases lt_or_gt_of_ne hx3 with hc3 | hc3
      · have hdz : Roof.trap_dzv rib top s h (Roof.rmod X s) = 0 := by
          simp only [Roof.trap_dzv]
          rw [if_neg (fun hc => absurd hc.2 (not_lt.mpr hc2.le)),
            if_neg (not_le.mpr hc3)]
        rw [hdz]
        refine hasDerivAt_rmod_comp (Roof.trap_y rib top s h) (fun _ => h) s
          0 X (Roof.trap_p2 rib top s) (Roof.trap_p3 rib top s) ⌊X / s⌋ hs
          (by rw [hp2]; linarith) (by rw [hp3]; linarith) ?_ ?_ ?_
          (hasDerivAt_const _ h)
        · rw [← hxe]; exact hc2
        · rw [← hxe]; exact hc3
        · intro y hy1 hy2
          simp only [Roof.trap_y]
          rw [if_neg (fun hc => absurd hc.2 (not_lt.mpr hy1.le)),
            if_pos ⟨le_of_lt hy1, hy2⟩]
      · have hdz : Roof.trap_dzv rib top s h (Roof.rmod X s) =
            -Roof.trap_slope rib top s h := by
          simp only [Roof.trap_dzv]
          rw [if_neg (fun hc => absurd hc.2
              (not_lt.mpr (by rw [hp2]; rw [hp3] at hc3; linarith))),
            if_pos hc3.le]
        rw [hdz]
        refine hasDerivAt_rmod_comp (Roof.trap_y rib top s h)
          (fun y => h - Roof.trap_slope rib top s h *
            (y - Roof.trap_p3 rib top s)) s
          (-Roof.trap_slope rib top s h) X (Roof.trap_p3 rib top s) s
          ⌊X / s⌋ hs (by rw [hp3]; linarith) le_rfl ?_ ?_ ?_ ?_
        · rw [← hxe]; exact hc3
        · rw [← hxe]; exact hxlt
        · intro y hy1 hy2
          simp only [Roof.trap_y]
          rw [if_neg (fun hc => absurd hc.2
              (not_lt.mpr (by rw [hp2]; rw [hp3] at hy1; linarith))),
            if_neg (fun hc => absurd hc.2 (not_lt.mpr hy1.le)),
            if_pos hy1.le]
        · have hid := (((hasDerivAt_id (Roof.rmod X s)).sub_const
            (Roof.trap_p3 rib top s)).const_mul
            (Roof.trap_slope rib top s h)).const_sub h
          rw [← hxe]
          simpa using hid

theorem xPos_div (s reps : ℝ) (i total : ℕ) (hs : s ≠ 0) :
    Roof.xPos s reps i total / s = reps * ((i : ℝ) / (total : ℝ)) := by
  simp only [Roof.xPos]
  rw [mul_assoc, mul_comm s, mul_div_assoc, div_self hs, mul_one]

theorem corr_deriv (s h reps : ℝ) (i total : ℕ) (hs : s ≠ 0) :
    HasDerivAt (Roof.corr_profile s h) (Roof.corr_dz s h reps i total)
      (Roof.xPos s reps i total) := by
  have hXs := xPos_div s reps i total hs
  have hu : HasDerivAt (fun Y : ℝ => 2 * Real.pi * (Y / s))
      (2 * Real.pi * (1 / s)) (Roof.xPos s reps i total) :=
    ((hasDerivAt_id _).div_const s).const_mul (2 * Real.pi)
  have hsin := (Real.hasDerivAt_sin
    (2 * Real.pi * (Roof.xPos s reps i total / s))).comp
    (Roof.xPos s reps i total) hu
  have hmain := (hsin.const_mul (h / 2)).add_const (h / 2)
  have heq : h / 2 * (Real.cos (2 * Real.pi *
        (Roof.xPos s reps i total / s)) * (2 * Real.pi * (1 / s))) =
      Roof.corr_dz s h reps i total := by
    rw [hXs]
    simp only [Roof.corr_dz]
    field_simp
    ring
  rw [heq] at hmain
  exact hmain

/-- C5 (amended).  The corrugated and trapezoidal normal-map and bump-map
generators are companions describing the same height profile: at every
pixel the normal map encodes (before the 8-bit `int()` quantization)
exactly the normalized vector `(-h'(x), 0, 1)` where `h` is the real-world
height profile whose value, scaled to grayscale, the bump map returns at
that pixel (for the trapezoidal profile at pixels strictly inside a piece
of the piecewise-linear profile).  The ribbed pair is not such a pair:
its bump map is a deliberately flat rectangular profile (see the
counterexample). -/
theorem normal_bump_companions :
    (∀ (s h reps : ℝ) (i total : ℕ), s ≠ 0 →
      Roof.corr_vector s h reps i total =
        encodeVec (unit3 (-Roof.corr_dz s h reps i total, 0, 1)) ∧
      Roof.corr_gray h reps i total =
        Roof.pyTrunc (Roof.corr_profile s h (Roof.xPos s reps i total) /
          h * 255) ∧
      HasDerivAt (Roof.corr_profile s h) (Roof.corr_dz s h reps i total)
        (Roof.xPos s reps i total)) ∧
    (∀ (rib top s h reps : ℝ) (i total : ℕ), 0 < s → 0 ≤ rib → 0 ≤ top →
      0 < (s - rib - top) / 2 →
      0 < Roof.rmod (Roof.xPos s reps i total) s →
      Roof.rmod (Roof.xPos s reps i total) s ≠ Roof.trap_p1 rib →
      Roof.rmod (Roof.xPos s reps i total) s ≠ Roof.trap_p2 rib top s →
      Roof.rmod (Roof.xPos s reps i total) s ≠ Roof.trap_p3 rib top s →
      Roof.trap_vector rib top s h reps i total =
        encodeVec (unit3 (-Roof.trap_dzv rib top s h
          (Roof.rmod (Roof.xPos s reps i total) s), 0, 1)) ∧
      Roof.trap_gray rib top s h reps i total =
        Roof.pyTrunc (Roof.trap_profile rib top s h
          (Roof.xPos s reps i total) / h * 255) ∧
      HasDerivAt (Roof.trap_profile rib top s h)
        (Roof.trap_dzv rib top s h
          (Roof.rmod (Roof.xPos s reps i total) s))
        (Roof.xPos s reps i total)) := by
  constructor
  · intro s h reps i total hs
    refine ⟨normalColor_eq _, ?_, corr_deriv s h reps i total hs⟩
    have hXs := xPos_div s reps i total hs
    simp only [Roof.corr_gray, Roof.corr_height, Roof.corr_profile, hXs]
  · intro rib top s h reps i total hs hrib htop hsw hx0 hx1 hx2 hx3
    exact ⟨normalColor_eq _, rfl,
      trap_deriv rib top s h _ hs hrib htop hsw hx0 hx1 hx2 hx3⟩

/-- C5 witness: the corrugated companion property at spacing 1, height 1,
one repeat, pixel 0 of 4, and the trapezoidal one at rib 1, top 1,
spacing 4, height 1, one repeat, pixel 3 of 8 (where `x_mod = 3/2` lies
strictly inside the rising slope piece). -/
theorem normal_bump_companions_witness :
    (Roof.corr_vector 1 1 1 0 4 =
      encodeVec (unit3 (-Roof.corr_dz 1 1 1 0 4, 0, 1)) ∧
     HasDerivAt (Roof.corr_profile 1 1) (Roof.corr_dz 1 1 1 0 4)
       (Roof.xPos 1 1 0 4)) ∧
    (Roof.trap_vector 1 1 4 1 1 3 8 =
      encodeVec (unit3 (-Roof.trap_dzv 1 1 4 1
        (Roof.rmod (Roof.xPos 4 1 3 8) 4), 0, 1)) ∧
     HasDerivAt (Roof.trap_profile 1 1 4 1)
       (Roof.trap_dzv 1 1 4 1 (Roof.rmod (Roof.xPos 4 1 3 8) 4))
       (Roof.xPos 4 1 3 8)) := by
  have hmod : Roof.rmod (Roof.xPos 4 1 3 8) 4 = 3 / 2 := by
    norm_num [Roof.rmod, Roof.xPos]
  have h1 := normal_bump_companions.1 1 1 1 0 4 (by norm_num)
  have h2 := normal_bump_companions.2 1 1 4 1 1 3 8 (by norm_num)
    (by norm_num) (by norm_num) (by norm_num)
    (by rw [hmod]; norm_num)
    (by rw [hmod]; norm_num [Roof.trap_p1])
    (by rw [hmod]; norm_num [Roof.trap_p2])
    (by rw [hmod]; norm_num [Roof.trap_p3])
  exact ⟨⟨h1.1, h1.2.2⟩, ⟨h2.1, h2.2.2⟩⟩

/-- C5 counterexample: the ribbed normal-map and bump-map generators do
not describe the same profile.  At pixel 3 of 8 (spacing 4, thickness 2,
height 1, one repeat) the bump-map profile is locally constant (255 on
the whole rib), so its derivative is 0 and the companion normal would
encode red `int(127.5) = 127`; the semi-elliptical normal map instead
outputs red 63 (its normal there is `(-1/2, 0, √3/2)`). -/
theorem normal_bump_companions_counterexample :
    HasDerivAt (Roof.rib_profile 4 2) 0 (Roof.xPos 4 1 3 8) ∧
    ((Roof.rib_gray 4 2 1 3 8 : ℝ) =
      Roof.rib_profile 4 2 (Roof.xPos 4 1 3 8)) ∧
    (encodeVec (unit3 (-(0 : ℝ), 0, 1))).1 = 127 ∧
    (Roof.rib_vector 4 2 1 1 3 8).1 = 63 ∧
    (63 : ℤ) ≠ 127 := by
  have hmod : Roof.rmod (Roof.xPos 4 1 3 8) 4 = 3 / 2 := by
    norm_num [Roof.rmod, Roof.xPos]
  refine ⟨?_, ?_, ?_, ?_, by decide⟩
  · refine hasDerivAt_rmod_comp (Roof.rib_height_y 4 2) (fun _ => 255) 4 0
      (Roof.xPos 4 1 3 8) 1 3 0 (by norm_num) (by norm_num) (by norm_num)
      ?_ ?_ ?_ (hasDerivAt_const _ 255)
    · norm_num [Roof.xPos]
    · norm_num [Roof.xPos]
    · intro y hy1 hy2
      simp only [Roof.rib_height_y, Roof.rib_p1]
      rw [if_pos ⟨by linarith, by linarith⟩]
  · simp only [Roof.rib_gray, Roof.rib_profile, Roof.rib_height_y,
      Roof.rib_p1, hmod]
    norm_num
  · simp only [encodeVec, unit3, norm3, Roof.pyTrunc]
    norm_num [Real.sqrt_one]
  · have hdz : Roof.rib_dzv 4 2 1 (3 / 2) = 1 / 2 / Real.sqrt (3 / 4) := by
      simp only [Roof.rib_dzv, Roof.rib_p1]
      norm_num
      intro hc
      exfalso
      have hlt : (1 / 10000 : ℝ) < Real.sqrt 3 / Real.sqrt 4 := by
        rw [← Real.sqrt_div (by norm_num : (0 : ℝ) ≤ 3)]
        exact Real.lt_sqrt_of_sq_lt (by norm_num)
      linarith
    have hdzsq : (1 / 2 / Real.sqrt (3 / 4)) ^ 2 = 1 / 3 := by
      rw [div_pow, Real.sq_sqrt (by norm_num : (0 : ℝ) ≤ 3 / 4)]
      norm_num
    have hq : Real.sqrt (3 / 4) * Real.sqrt (4 / 3) = 1 := by
      rw [← Real.sqrt_mul (by norm_num : (0 : ℝ) ≤ 3 / 4)]
      norm_num
    have hmag : Real.sqrt ((1 / 2 / Real.sqrt (3 / 4)) ^ 2 + 1) =
        Real.sqrt (4 / 3) := by
      rw [hdzsq]
      norm_num
    simp only [Roof.rib_vector, hmod, hdz, Roof.normalColor]
    rw [hmag]
    have hnx : -(1 / 2 / Real.sqrt (3 / 4)) / Real.sqrt (4 / 3) =
        -(1 / 2) := by
      rw [neg_div, div_div, hq]
      norm_num
    rw [hnx]
    have hval : ((-(1 / 2 : ℝ)) * 0.5 + 0.5) * 255 = 63.75 := by norm_num
    rw [hval]
    simp only [Roof.pyTrunc]
    rw [if_pos (by norm_num)]
    norm_num

/-! ## Window-nesting of the dash walk (claim C3) -/

namespace TT

/-- Clip a drawn `t`-interval to the window `[s, e]`, dropping it when the
overlap is empty or degenerate. -/
def clampT (s e : ℚ) (p : ℚ × ℚ) : Option (ℚ × ℚ) :=
  if max p.1 s < min p.2 e then some (max p.1 s, min p.2 e) else none

/-- Mirror of the dash walk that checks that every step (drawn or skipped)
exceeds the `1e-9` epsilon, i.e. that the walk never triggers the epsilon
nudge and never has a dash clipped below the drawing threshold. -/
def cleanAux (dashes : List ℚ) (tEnd : ℚ) : ℕ → ℚ → Bool
  | 0, _ => false
  | fuel + 1, t =>
    if t < tEnd then
      let L := loopLen dashes
      let φ := qmod t L
      let sel := selectDash dashes φ
      let step := min (|sel.1| - (φ - sel.2)) (tEnd - t)
      if epsQ < step then cleanAux dashes tEnd fuel (t + step) else false
    else true

end TT

theorem qmod_shift (t δ L : ℚ) (hL : 0 < L) (hδ : 0 ≤ δ)
    (h : qmod t L + δ < L) : qmod (t + δ) L = qmod t L + δ := by
  have h0 := qmod_nonneg t L hL
  have hr : qmod t L = t - L * ⌊t / L⌋ := rfl
  have hk : ⌊(t + δ) / L⌋ = ⌊t / L⌋ := by
    rw [Int.floor_eq_iff]
    constructor
    · rw [le_div_iff₀ hL]
      nlinarith
    · rw [div_lt_iff₀ hL]
      nlinarith
  show t + δ - L * ⌊(t + δ) / L⌋ = qmod t L + δ
  rw [hk, hr]
  ring

theorem selAux_acc_le (d0 φ : ℚ) : ∀ (ds : List ℚ) (acc : ℚ),
    acc ≤ (TT.selAux d0 φ ds acc).2 := by
  intro ds
  induction ds with
  | nil => intro acc; simp [TT.selAux]
  | cons d rest ih =>
    intro acc
    by_cases hbr : acc + |d| > φ
    · simp [TT.selAux, if_pos hbr]
    · simp only [TT.selAux, if_neg hbr]
      have := ih (acc + |d|)
      have habs := abs_nonneg d
      linarith

theorem selAux_stable (d0 φ φ' : ℚ) : ∀ (ds : List ℚ) (acc : ℚ),
    (TT.selAux d0 φ ds acc).2 ≤ φ' →
    φ' < (TT.selAux d0 φ ds acc).2 + |(TT.selAux d0 φ ds acc).1| →
    TT.selAux d0 φ' ds acc = TT.selAux d0 φ ds acc := by
  intro ds
  induction ds with
  | nil => intro acc _ _; rfl
  | cons d rest ih =>
    intro acc h1 h2
    by_cases hbr : acc + |d| > φ
    · simp only [TT.selAux, if_pos hbr] at h1 h2 ⊢
      rw [if_pos (by linarith)]
    · simp only [TT.selAux, if_neg hbr] at h1 h2 ⊢
      have hacc := selAux_acc_le d0 φ rest (acc + |d|)
      rw [if_neg (by push_neg; linarith)]
      exact ih (acc + |d|) h1 h2

/-- Moving forward inside the active dash shifts the phase linearly and
keeps the same active dash. -/
theorem phase_shift (dashes : List ℚ) (t δ : ℚ)
    (hL : 0 < TT.loopLen dashes) (hδ : 0 ≤ δ)
    (hlt : δ < |(TT.selectDash dashes (qmod t (TT.loopLen dashes))).1| -
      (qmod t (TT.loopLen dashes) -
       (TT.selectDash dashes (qmod t (TT.loopLen dashes))).2)) :
    qmod (t + δ) (TT.loopLen dashes) = qmod t (TT.loopLen dashes) + δ ∧
    TT.selectDash dashes (qmod (t + δ) (TT.loopLen dashes)) =
      TT.selectDash dashes (qmod t (TT.loopLen dashes)) := by
  have h0 := qmod_nonneg t (TT.loopLen dashes) hL
  have hlt2 := qmod_lt t (TT.loopLen dashes) hL
  have hspec := selectDash_spec dashes (qmod t (TT.loopLen dashes)) h0 hlt2
  have hsum : qmod t (TT.loopLen dashes) + δ < TT.loopLen dashes := by
    linarith [hspec.2.2]
  have h1 := qmod_shift t δ (TT.loopLen dashes) hL hδ hsum
  refine ⟨h1, ?_⟩
  rw [h1]
  have hs1 := hspec.1
  have hs2 := hlt
  unfold TT.selectDash at hs1 hs2 ⊢
  exact selAux_stable (dashes.headD 0) (qmod t (TT.loopLen dashes))
    (qmod t (TT.loopLen dashes) + δ) dashes 0
    (by linarith) (by linarith)

theorem gdsbAux_of_ge (dashes : List ℚ) (e : ℚ) (f : ℕ) (t : ℚ)
    (l : List (ℚ × ℚ)) (hte : e ≤ t)
    (h : TT.gdsbAux dashes e f t = some l) : l = [] := by
  cases f with
  | zero => simp [TT.gdsbAux] at h
  | succ g =>
    simp only [TT.gdsbAux, if_neg (not_lt.mpr hte),
      Option.some.injEq] at h
    exact h.symm

theorem clampT_none_of_out (s e : ℚ) (p : ℚ × ℚ)
    (h : e ≤ p.1 ∨ p.2 ≤ s) : TT.clampT s e p = none := by
  rcases h with h | h
  · unfold TT.clampT
    rw [if_neg]
    push_neg
    calc min p.2 e ≤ e := min_le_right _ _
      _ ≤ p.1 := h
      _ ≤ max p.1 s := le_max_left _ _
  · unfold TT.clampT
    rw [if_neg]
    push_neg
    calc min p.2 e ≤ p.2 := min_le_left _ _
      _ ≤ s := h
      _ ≤ max p.1 s := le_max_right _ _

theorem filterMap_clampT_nil (s e : ℚ) (l : List (ℚ × ℚ))
    (h : ∀ p ∈ l, e ≤ p.1 ∨ p.2 ≤ s) :
    l.filterMap (TT.clampT s e) = [] := by
  induction l with
  | nil => rfl
  | cons p rest ih =>
    rw [List.filterMap_cons,
      clampT_none_of_out s e p (h p (List.mem_cons_self _ _))]
    exact ih (fun q hq => h q (List.mem_cons_of_mem _ hq))

/-- Extending only the far end of a clean walk clips: the walk over
`[t, e]` emits exactly the walk over `[t, e']` clamped to `[s, e]`
(for any `s ≤ t`). -/
theorem gdsb_nest_sameStart (dashes : List ℚ) (s e e' : ℚ)
    (hL : 0 < TT.loopLen dashes) (hee : e ≤ e') :
    ∀ (f' : ℕ) (t : ℚ) (xs : List (ℚ × ℚ)), s ≤ t →
      TT.cleanAux dashes e' f' t = true →
      TT.gdsbAux dashes e' f' t = some xs →
      ∀ (f : ℕ) (ys : List (ℚ × ℚ)),
        TT.cleanAux dashes e f t = true →
        TT.gdsbAux dashes e f t = some ys →
        ys = xs.filterMap (TT.clampT s e) := by
  have heps : (0 : ℚ) < epsQ := by norm_num [epsQ]
  intro f'
  induction f' with
  | zero => intro t xs _ hcl _ _ _ _ _; simp [TT.cleanAux] at hcl
  | succ g' ih =>
    intro t xs hst hcl' hgd' f ys hcl hgd
    by_cases hte' : t < e'
    · by_cases hte : t < e
      · cases f with
        | zero => simp [TT.cleanAux] at hcl
        | succ g =>
          simp only [TT.gdsbAux, if_pos hte'] at hgd'
          simp only [TT.cleanAux, if_pos hte'] at hcl'
          simp only [TT.gdsbAux, if_pos hte] at hgd
          simp only [TT.cleanAux, if_pos hte] at hcl
          set L := TT.loopLen dashes with hLdef
          set φ := qmod t L with hφdef
          set sel := TT.selectDash dashes φ with hseldef
          set rem := |sel.1| - (φ - sel.2) with hremdef
          set step' := min rem (e' - t) with hstepPrimeDef
          set step := min rem (e - t) with hstepdef
          have hstep'eps : epsQ < step' := by
            by_contra hc
            rw [if_neg hc] at hcl'
            simp at hcl'
          have hstepeps : epsQ < step := by
            by_contra hc
            rw [if_neg hc] at hcl
            simp at hcl
          rw [if_pos hstep'eps] at hcl'
          rw [if_pos hstepeps] at hcl
          rw [if_neg (not_lt.mpr hstep'eps.le), add_zero] at hgd'
          rw [if_neg (not_lt.mpr hstepeps.le), add_zero] at hgd
          rw [Option.map_eq_some'] at hgd' hgd
          obtain ⟨rest', hrest', hxs⟩ := hgd'
          obtain ⟨rest, hrest, hys⟩ := hgd
          by_cases hcase : rem ≤ e - t
          · have hs1 : step = rem := min_eq_left hcase
            have hs2 : step' = rem := min_eq_left (by linarith)
            rw [hs1] at hcl hrest
            rw [hs2] at hcl' hrest'
            have hrem0 : 0 < rem := by
              have := hstepeps
              rw [hs1] at this
              linarith
            have hrec := ih (t + rem) rest' (by linarith) hcl' hrest'
              g rest hcl hrest
            have hremeps : epsQ < rem := by rw [← hs1]; exact hstepeps
            rw [← hys, ← hxs, List.filterMap_append, ← hrec, hs1, hs2]
            by_cases hd : sel.1 > 0
            · rw [if_pos (show sel.1 > 0 ∧ rem > epsQ from ⟨hd, hremeps⟩)]
              have hcl1 : TT.clampT s e (t, t + rem) = some (t, t + rem) := by
                unfold TT.clampT
                simp only
                rw [max_eq_left hst, min_eq_left (by linarith : t + rem ≤ e),
                  if_pos (by linarith : t < t + rem)]
              simp [List.filterMap_cons, hcl1]
            · rw [if_neg (show ¬(sel.1 > 0 ∧ rem > epsQ) from
                fun hc => hd hc.1)]
              simp
          · push_neg at hcase
            have hs1 : step = e - t := min_eq_right (by linarith)
            have hrest0 : rest = [] :=
              gdsbAux_of_ge dashes e g (t + step) rest (by rw [hs1]; linarith)
                hrest
            have hge : e ≤ t + step' := by
              have h1 : e - t ≤ min rem (e' - t) :=
                le_min (le_of_lt hcase) (by linarith)
              rw [hstepPrimeDef]
              linarith
            have hbnd := gdsbAux_pieces_bounds dashes e' hL g' (t + step')
              rest' hrest'
            have hfm : rest'.filterMap (TT.clampT s e) = [] :=
              filterMap_clampT_nil s e rest'
                (fun p hp => Or.inl (le_trans hge (hbnd p hp).1))
            rw [← hys, ← hxs, List.filterMap_append, hfm, hrest0]
            by_cases hd : sel.1 > 0
            · rw [if_pos (show sel.1 > 0 ∧ step > epsQ from ⟨hd, hstepeps⟩),
                if_pos (show sel.1 > 0 ∧ step' > epsQ from ⟨hd, hstep'eps⟩)]
              have hcl1 : TT.clampT s e (t, t + step') = some (t, e) := by
                unfold TT.clampT
                simp only
                rw [max_eq_left hst, min_eq_right hge, if_pos hte]
              have hstep1 : t + step = e := by rw [hs1]; ring
              simp [List.filterMap_cons, hcl1, hstep1]
            · rw [if_neg (show ¬(sel.1 > 0 ∧ step > epsQ) from
                  fun hc => hd hc.1),
                if_neg (show ¬(sel.1 > 0 ∧ step' > epsQ) from
                  fun hc => hd hc.1)]
              simp
      · have hte2 : e ≤ t := not_lt.mp hte
        have hys : ys = [] := gdsbAux_of_ge dashes e f t ys hte2 hgd
        have hbnd := gdsbAux_pieces_bounds dashes e' hL (g' + 1) t xs hgd'
        have hfm : xs.filterMap (TT.clampT s e) = [] :=
          filterMap_clampT_nil s e xs
            (fun p hp => Or.inl (le_trans hte2 (hbnd p hp).1))
        rw [hys, hfm]
    · have hte2 : e ≤ t := le_trans hee (not_lt.mp hte')
      have hys : ys = [] := gdsbAux_of_ge dashes e f t ys hte2 hgd
      have hxs : xs = [] :=
        gdsbAux_of_ge dashes e' (g' + 1) t xs (not_lt.mp hte') hgd'
      rw [hys, hxs]
      rfl

/-- General window-nesting of clean walks: the walk over `[s, e]` emits
exactly the walk over `[t₀, e']` (any `t₀ ≤ s`, `e ≤ e'`) clamped to
`[s, e]`. -/
theorem gdsb_nest (dashes : List ℚ) (s e e' : ℚ)
    (hL : 0 < TT.loopLen dashes) (hse : s < e) (hee : e ≤ e') :
    ∀ (f' : ℕ) (t₀ : ℚ) (xs : List (ℚ × ℚ)), t₀ ≤ s →
      TT.cleanAux dashes e' f' t₀ = true →
      TT.gdsbAux dashes e' f' t₀ = some xs →
      ∀ (f : ℕ) (ys : List (ℚ × ℚ)),
        TT.cleanAux dashes e f s = true →
        TT.gdsbAux dashes e f s = some ys →
        ys = xs.filterMap (TT.clampT s e) := by
  have heps : (0 : ℚ) < epsQ := by norm_num [epsQ]
  intro f'
  induction f' with
  | zero => intro t₀ xs _ hcl' _ _ _ _ _; simp [TT.cleanAux] at hcl'
  | succ g' ih =>
    intro t₀ xs ht0 hcl' hgd' f ys hcl hgd
    have hte' : t₀ < e' := by linarith
    simp only [TT.gdsbAux, if_pos hte'] at hgd'
    simp only [TT.cleanAux, if_pos hte'] at hcl'
    set L := TT.loopLen dashes with hLdef
    set φ := qmod t₀ L with hφdef
    set sel := TT.selectDash dashes φ with hseldef
    set rem := |sel.1| - (φ - sel.2) with hremdef
    set step' := min rem (e' - t₀) with hstepPrimeDef
    have hstep'eps : epsQ < step' := by
      by_contra hc
      rw [if_neg hc] at hcl'
      simp at hcl'
    rw [if_pos hstep'eps] at hcl'
    rw [if_neg (not_lt.mpr hstep'eps.le), add_zero] at hgd'
    rw [Option.map_eq_some'] at hgd'
    obtain ⟨rest', hrest', hxs⟩ := hgd'
    by_cases ht1 : t₀ + step' ≤ s
    · have hrec := ih (t₀ + step') rest' ht1 hcl' hrest' f ys hcl hgd
      have hnone : (if sel.1 > 0 ∧ step' > epsQ then [(t₀, t₀ + step')]
          else []).filterMap (TT.clampT s e) = [] := by
        by_cases hd : sel.1 > 0
        · rw [if_pos (show sel.1 > 0 ∧ step' > epsQ from ⟨hd, hstep'eps⟩),
            List.filterMap_cons,
            clampT_none_of_out s e (t₀, t₀ + step') (Or.inr ht1)]
          rfl
        · rw [if_neg (show ¬(sel.1 > 0 ∧ step' > epsQ) from
              fun hc => hd hc.1)]
          rfl
      rw [← hxs, List.filterMap_append, hnone]
      simpa using hrec
    · push_neg at ht1
      have hδnn : 0 ≤ s - t₀ := by linarith
      have hδlt : s - t₀ < rem := by
        have h1 : step' ≤ rem := min_le_left _ _
        linarith
      have hps := phase_shift dashes t₀ (s - t₀) hL hδnn hδlt
      have hts : t₀ + (s - t₀) = s := by ring
      rw [hts] at hps
      obtain ⟨hqs, hsels⟩ := hps
      rw [← hLdef] at hqs hsels
      rw [← hφdef] at hqs hsels
      rw [← hseldef] at hsels
      cases f with
      | zero => simp [TT.cleanAux] at hcl
      | succ g =>
        simp only [TT.gdsbAux, if_pos hse] at hgd
        simp only [TT.cleanAux, if_pos hse] at hcl
        rw [← hLdef] at hgd hcl
        rw [hsels, hqs] at hgd hcl
        have hrems : |sel.1| - (φ + (s - t₀) - sel.2) = rem - (s - t₀) := by
          rw [hremdef]
          ring
        rw [hrems] at hgd hcl
        set stepS := min (rem - (s - t₀)) (e - s) with hstepSdef
        have hstepSeps : epsQ < stepS := by
          by_contra hc
          rw [if_neg hc] at hcl
          simp at hcl
        rw [if_pos hstepSeps] at hcl
        rw [if_neg (not_lt.mpr hstepSeps.le), add_zero] at hgd
        rw [Option.map_eq_some'] at hgd
        obtain ⟨rest, hrest, hys⟩ := hgd
        by_cases hcase : rem - (s - t₀) ≤ e - s
        · have hSs : stepS = rem - (s - t₀) := min_eq_left hcase
          have hs2 : step' = rem := min_eq_left (by linarith)
          have htt : s + stepS = t₀ + rem := by rw [hSs]; ring
          rw [hs2] at hcl' hrest'
          rw [htt] at hcl hrest
          have htail := gdsb_nest_sameStart dashes s e e' hL hee g'
            (t₀ + rem) rest' (by linarith) hcl' hrest' g rest hcl hrest
          rw [← hys, ← hxs, List.filterMap_append, ← htail]
          by_cases hd : sel.1 > 0
          · rw [if_pos (show sel.1 > 0 ∧ stepS > epsQ from
                ⟨hd, hstepSeps⟩),
              if_pos (show sel.1 > 0 ∧ step' > epsQ from ⟨hd, hstep'eps⟩)]
            have hclp : TT.clampT s e (t₀, t₀ + step') =
                some (s, t₀ + rem) := by
              unfold TT.clampT
              simp only
              rw [hs2, max_eq_right ht0, min_eq_left (by linarith),
                if_pos (by linarith)]
            simp [List.filterMap_cons, hclp, htt]
          · rw [if_neg (show ¬(sel.1 > 0 ∧ stepS > epsQ) from
                fun hc => hd hc.1),
              if_neg (show ¬(sel.1 > 0 ∧ step' > epsQ) from
                fun hc => hd hc.1)]
            simp
        · push_neg at hcase
          have hSs : stepS = e - s := min_eq_right (by linarith)
          have hrest0 : rest = [] :=
            gdsbAux_of_ge dashes e g (s + stepS) rest (by rw [hSs]; linarith)
              hrest
          have hge : e ≤ t₀ + step' := by
            have h1 : e - t₀ ≤ min rem (e' - t₀) :=
              le_min (by linarith) (by linarith)
            rw [hstepPrimeDef]
            linarith
          have hbnd := gdsbAux_pieces_bounds dashes e' hL g' (t₀ + step')
            rest' hrest'
          have hfm : rest'.filterMap (TT.clampT s e) = [] :=
            filterMap_clampT_nil s e rest'
              (fun p hp => Or.inl (le_trans hge (hbnd p hp).1))
          rw [← hys, ← hxs, List.filterMap_append, hfm, hrest0]
          by_cases hd : sel.1 > 0
          · rw [if_pos (show sel.1 > 0 ∧ stepS > epsQ from
                ⟨hd, hstepSeps⟩),
              if_pos (show sel.1 > 0 ∧ step' > epsQ from ⟨hd, hstep'eps⟩)]
            have hclp : TT.clampT s e (t₀, t₀ + step') = some (s, e) := by
              unfold TT.clampT
              simp only
              rw [max_eq_right ht0, min_eq_right hge, if_pos hse]
            have hse2 : s + stepS = e := by rw [hSs]; ring
            simp [List.filterMap_cons, hclp, hse2]
          · rw [if_neg (show ¬(sel.1 > 0 ∧ stepS > epsQ) from
                fun hc => hd hc.1),
              if_neg (show ¬(sel.1 > 0 ∧ step' > epsQ) from
                fun hc => hd hc.1)]
            simp

theorem clampT_none_of_degenerate (s e : ℚ) (p : ℚ × ℚ) (h : e ≤ s) :
    TT.clampT s e p = none := by
  unfold TT.clampT
  rw [if_neg]
  push_neg
  calc min p.2 e ≤ e := min_le_right _ _
    _ ≤ s := h
    _ ≤ max p.1 s := le_max_right _ _

theorem filterMap_clampT_degenerate (s e : ℚ) (h : e ≤ s)
    (l : List (ℚ × ℚ)) : l.filterMap (TT.clampT s e) = [] := by
  induction l with
  | nil => rfl
  | cons p rest ih =>
    rw [List.filterMap_cons, clampT_none_of_degenerate s e p h]
    exact ih

/-- C3 (amended).  The dash walk is phase-locked to the pattern origin:
whenever neither walk is affected by the `1e-9` epsilon (no step of either
walk falls below the epsilon threshold, expressed by `cleanAux`), the
`t`-intervals drawn for the window `[s, e]` are exactly the intervals
drawn for any enclosing window `[s', e']` clipped to `[s, e]`, and
likewise for the emitted segments; enlarging a clip window then never
shifts a dash boundary.  Without the cleanness proviso the claim fails:
sub-epsilon slivers are dropped and the epsilon nudge shifts boundaries
(see the counterexample). -/
theorem dash_window_nesting (px py : ℚ) (u : ℚ × ℚ) (dashes : List ℚ)
    (s e s' e' : ℚ) (hL : 0 < TT.loopLen dashes)
    (hs : s' ≤ s) (hse : s ≤ e) (hee : e ≤ e')
    (hclean' : TT.cleanAux dashes e' (TT.fuelFor s' e') s' = true)
    (hclean : TT.cleanAux dashes e (TT.fuelFor s e) s = true) :
    TT.dashPieces s e dashes =
      (TT.dashPieces s' e' dashes).filterMap (TT.clampT s e) ∧
    TT.getDashedSegmentsBasis px py u s e dashes =
      ((TT.dashPieces s' e' dashes).filterMap (TT.clampT s e)).map
        (TT.toSeg px py u) := by
  obtain ⟨xs, hxs⟩ := gdsbAux_some_of_fuel dashes e' hL (TT.fuelFor s' e')
    s' (by unfold TT.fuelFor; omega)
  obtain ⟨ys, hys⟩ := gdsbAux_some_of_fuel dashes e hL (TT.fuelFor s e)
    s (by unfold TT.fuelFor; omega)
  have hp' : TT.dashPieces s' e' dashes = xs := by
    unfold TT.dashPieces
    rw [hxs]
    rfl
  have hp : TT.dashPieces s e dashes = ys := by
    unfold TT.dashPieces
    rw [hys]
    rfl
  have hmain : TT.dashPieces s e dashes =
      (TT.dashPieces s' e' dashes).filterMap (TT.clampT s e) := by
    rw [hp, hp']
    by_cases hse2 : s < e
    · exact gdsb_nest dashes s e e' hL hse2 hee (TT.fuelFor s' e') s' xs
        hs hclean' hxs (TT.fuelFor s e) ys hclean hys
    · have heqse : e ≤ s := not_lt.mp hse2
      have hys0 : ys = [] :=
        gdsbAux_of_ge dashes e (TT.fuelFor s e) s ys heqse hys
      rw [hys0, filterMap_clampT_degenerate s e heqse xs]
  refine ⟨hmain, ?_⟩
  unfold TT.getDashedSegmentsBasis
  rw [if_neg (ne_of_gt hL), hmain]

/-- C3 witness: for the dash list `[3e-9, -3e-9]` both the walk over
`[0, 9e-9]` and the walk over the enclosed window `[1e-9, 6e-9]` are
clean, so the smaller window's pieces are the larger one's clipped. -/
theorem dash_window_nesting_witness :
    TT.dashPieces epsQ (6 * epsQ) [3 * epsQ, -(3 * epsQ)] =
      (TT.dashPieces 0 (9 * epsQ) [3 * epsQ, -(3 * epsQ)]).filterMap
        (TT.clampT epsQ (6 * epsQ)) ∧
    TT.getDashedSegmentsBasis 0 0 (1, 0) epsQ (6 * epsQ)
        [3 * epsQ, -(3 * epsQ)] =
      ((TT.dashPieces 0 (9 * epsQ) [3 * epsQ, -(3 * epsQ)]).filterMap
        (TT.clampT epsQ (6 * epsQ))).map (TT.toSeg 0 0 (1, 0)) := by
  have hL : (0 : ℚ) < TT.loopLen [3 * epsQ, -(3 * epsQ)] := by
    norm_num [TT.loopLen, epsQ]
  have hfuelBig : TT.fuelFor 0 (9 * epsQ) = 10 := by
    norm_num [TT.fuelFor, epsQ, ceil_to_floor]
    rfl
  have hfuelSmall : TT.fuelFor epsQ (6 * epsQ) = 6 := by
    norm_num [TT.fuelFor, epsQ, ceil_to_floor]
    rfl
  have hcleanBig : TT.cleanAux [3 * epsQ, -(3 * epsQ)] (9 * epsQ) 10 0 =
      true := by
    rw [show (10 : ℕ) = 9 + 1 from rfl, TT.cleanAux]
    norm_num [TT.selectDash, TT.selAux, qmod, TT.loopLen, epsQ,
      abs_of_pos, abs_of_neg]
    rw [show (9 : ℕ) = 8 + 1 from rfl, TT.cleanAux]
    norm_num [TT.selectDash, TT.selAux, qmod, TT.loopLen, epsQ,
      abs_of_pos, abs_of_neg]
    rw [show (8 : ℕ) = 7 + 1 from rfl, TT.cleanAux]
    norm_num [TT.selectDash, TT.selAux, qmod, TT.loopLen, epsQ,
      abs_of_pos, abs_of_neg]
    rw [show (7 : ℕ) = 6 + 1 from rfl, TT.cleanAux]
    norm_num [epsQ]
  have hcleanSmall : TT.cleanAux [3 * epsQ, -(3 * epsQ)] (6 * epsQ) 6
      epsQ = true := by
    rw [show (6 : ℕ) = 5 + 1 from rfl, TT.cleanAux]
    norm_num [TT.selectDash, TT.selAux, qmod, TT.loopLen, epsQ,
      abs_of_pos, abs_of_neg]
    rw [show (5 : ℕ) = 4 + 1 from rfl, TT.cleanAux]
    norm_num [TT.selectDash, TT.selAux, qmod, TT.loopLen, epsQ,
      abs_of_pos, abs_of_neg]
    rw [show (4 : ℕ) = 3 + 1 from rfl, TT.cleanAux]
    norm_num [epsQ]
  exact dash_window_nesting 0 0 (1, 0) [3 * epsQ, -(3 * epsQ)]
    epsQ (6 * epsQ) 0 (9 * epsQ) hL (by norm_num [epsQ])
    (by norm_num [epsQ]) (by norm_num [epsQ])
    (by rw [hfuelBig]; exact hcleanBig)
    (by rw [hfuelSmall]; exact hcleanSmall)

/-- C3 counterexample: for the dash list `[3e-9, -3e-9]`, the window
`[0, 1e-10]` (inside `[0, 6e-9]`) gets no segment — the clipped first dash
is a sub-epsilon sliver the walk refuses to draw — while the enlarged
window draws `(0, 3e-9)`, whose clip to the small window is the nonempty
`(0, 1e-10)`.  The claimed intersection property therefore fails. -/
theorem dash_window_nesting_counterexample :
    (0 : ℚ) < TT.loopLen [3 * epsQ, -(3 * epsQ)] ∧
    (0 : ℚ) ≤ 0 ∧ (0 : ℚ) ≤ epsQ / 10 ∧ epsQ / 10 ≤ 6 * epsQ ∧
    TT.dashPieces 0 (epsQ / 10) [3 * epsQ, -(3 * epsQ)] = [] ∧
    TT.getDashedSegmentsBasis 0 0 (1, 0) 0 (epsQ / 10)
      [3 * epsQ, -(3 * epsQ)] = [] ∧
    TT.dashPieces 0 (6 * epsQ) [3 * epsQ, -(3 * epsQ)] = [(0, 3 * epsQ)] ∧
    (TT.dashPieces 0 (6 * epsQ) [3 * epsQ, -(3 * epsQ)]).filterMap
      (TT.clampT 0 (epsQ / 10)) = [(0, epsQ / 10)] ∧
    ([] : List (ℚ × ℚ)) ≠ [(0, epsQ / 10)] := by
  have hfuelS : TT.fuelFor 0 (epsQ / 10) = 2 := by
    norm_num [TT.fuelFor, epsQ, ceil_to_floor]
  have hfuelB : TT.fuelFor 0 (6 * epsQ) = 7 := by
    norm_num [TT.fuelFor, epsQ, ceil_to_floor]
    rfl
  have hwS : TT.gdsbAux [3 * epsQ, -(3 * epsQ)] (epsQ / 10) 2 0 =
      some [] := by
    rw [show (2 : ℕ) = 1 + 1 from rfl, TT.gdsbAux]
    norm_num [TT.selectDash, TT.selAux, qmod, TT.loopLen, epsQ,
      abs_of_pos, abs_of_neg]
    rw [show (1 : ℕ) = 0 + 1 from rfl, TT.gdsbAux]
    norm_num [epsQ]
  have hwB : TT.gdsbAux [3 * epsQ, -(3 * epsQ)] (6 * epsQ) 7 0 =
      some [(0, 3 * epsQ)] := by
    rw [show (7 : ℕ) = 6 + 1 from rfl, TT.gdsbAux]
    norm_num [TT.selectDash, TT.selAux, qmod, TT.loopLen, epsQ,
      abs_of_pos, abs_of_neg]
    rw [show (6 : ℕ) = 5 + 1 from rfl, TT.gdsbAux]
    norm_num [TT.selectDash, TT.selAux, qmod, TT.loopLen, epsQ,
      abs_of_pos, abs_of_neg]
    rw [show (5 : ℕ) = 4 + 1 from rfl, TT.gdsbAux]
    norm_num [TT.selectDash, TT.selAux, qmod, TT.loopLen, epsQ,
      abs_of_pos, abs_of_neg]
  have hpS : TT.dashPieces 0 (epsQ / 10) [3 * epsQ, -(3 * epsQ)] = [] := by
    unfold TT.dashPieces
    rw [hfuelS, hwS]
    rfl
  have hpB : TT.dashPieces 0 (6 * epsQ) [3 * epsQ, -(3 * epsQ)] =
      [(0, 3 * epsQ)] := by
    unfold TT.dashPieces
    rw [hfuelB, hwB]
    rfl
  refine ⟨by norm_num [TT.loopLen, epsQ], le_refl 0,
    by norm_num [epsQ], by norm_num [epsQ], hpS, ?_, hpB, ?_, by simp⟩
  · unfold TT.getDashedSegmentsBasis
    rw [if_neg (by norm_num [TT.loopLen, epsQ]), hpS]
    rfl
  · rw [hpB, List.filterMap_cons]
    have hcl : TT.clampT 0 (epsQ / 10) ((0 : ℚ), 3 * epsQ) =
        some (0, epsQ / 10) := by
      unfold TT.clampT
      rw [if_pos]
      · norm_num [epsQ]
      · norm_num [epsQ]
    rw [hcl]
    rfl
